import Mathlib

/-!
# Verification of `sorted_set_as_weight_balanced_tree.c`

A shallow embedding of the weight-balanced-tree sorted set from
`src/sorted_set_as_weight_balanced_tree.c`, together with proofs of the
spec's claims about it.

The C code is imperative: it descends from the root recording the search
path on an explicit stack, performs the terminal work at the bottom, and
then unwinds the recorded path bottom-up, recomputing sizes
(`update_size`) and rebalancing (`node_rebalance`) at every ancestor
(`search_path_rebalance`).  The embedding expresses the same algorithm as
structural recursion: the recursive call plays the role of the descent,
and the code run after the recursive call returns plays the role of the
bottom-up unwind over the recorded path (deepest ancestor first), exactly
as in `search_path_rebalance`.

The `NIL` sentinel (a shared node with `size == 0` whose children point
to itself) is embedded as the constructor `BTree.nil`, with
`BTree.child` returning `nil` on `nil` (the sentinel's self-children)
and `BTree.size` returning `0` on `nil` (the sentinel's stored size).
-/

namespace WBT

/-- `struct binary_node_struct`: two child links, a stored subtree size,
and the element payload stored inline after the struct.  `nil` is the
`NIL` sentinel. -/
inductive BTree (α : Type) : Type where
  | nil : BTree α
  | node (child0 child1 : BTree α) (size : Nat) (element : α) : BTree α
deriving Repr, DecidableEq

namespace BTree

variable {α : Type}

/-- The stored `size` field; the `NIL` sentinel stores size `0`. -/
def size : BTree α → Nat
  | nil => 0
  | node _ _ s _ => s

/-- `node_p->child[dir]` with `false = 0`, `true = 1`; the sentinel's
children point back to itself. -/
def child : BTree α → Bool → BTree α
  | nil, _ => nil
  | node c0 _ _ _, false => c0
  | node _ c1 _ _, true => c1

/-- `node_p->child[dir] = c` (no effect on the sentinel, which the C
never mutates). -/
def setChild : BTree α → Bool → BTree α → BTree α
  | nil, _, _ => nil
  | node _ c1 s v, false, c => node c c1 s v
  | node c0 _ s v, true, c => node c0 c s v

end BTree

open BTree

variable {α : Type}

/-- `update_size`: `node_p->size = 1 + child[0]->size + child[1]->size`.
(The C asserts `node_p != NIL`; on `nil` the embedding is the identity.) -/
def update_size : BTree α → BTree α
  | .nil => .nil
  | .node c0 c1 _ v => .node c0 c1 (1 + c0.size + c1.size) v

/-- `leaf_create`: a fresh node with `NIL` children, size 1, holding the
element. -/
def leaf_create (e : α) : BTree α := .node .nil .nil 1 e

/-- `rotation(y, dir)`: `x = y->child[1-dir]`, `y->child[1-dir] =
x->child[dir]`, `x->child[dir] = y`, then `update_size(y)`,
`update_size(x)`; returns `x`. -/
def rotation (y : BTree α) (dir : Bool) : BTree α :=
  let x := y.child !dir
  let y2 := update_size (y.setChild (!dir) (x.child dir))
  update_size (x.setChild dir y2)

/-- `double_rotation(z, dir)`: `y = z->child[1-dir]`, `x = y->child[dir]`,
`y->child[dir] = x->child[1-dir]`, `x->child[1-dir] = y`,
`z->child[1-dir] = x->child[dir]`, `x->child[dir] = z`, then
`update_size` of `z`, `y`, `x` in that order; returns `x`. -/
def double_rotation (z : BTree α) (dir : Bool) : BTree α :=
  let y := z.child !dir
  let x := y.child dir
  let y2 := update_size (y.setChild dir (x.child (!dir)))
  let z2 := update_size (z.setChild (!dir) (x.child dir))
  update_size ((x.setChild (!dir) y2).setChild dir z2)

/-- `node_imbalanced(node, n1, n2, dir)`:
`n1 * (child[1-dir]->size + 1) < n2 * (child[dir]->size + 1)`. -/
def node_imbalanced (t : BTree α) (n1 n2 : Nat) (dir : Bool) : Bool :=
  n1 * ((t.child !dir).size + 1) < n2 * ((t.child dir).size + 1)

/-- `node_rebalance`: for `dir = 0` then `dir = 1`, if
`node_imbalanced(node, 5, 2, dir)` then apply `rotation(node, 1-dir)`
when `node_imbalanced(node->child[dir], 2, 3, dir)` and
`double_rotation(node, 1-dir)` otherwise, and return (so at most one
restructuring fires per call). -/
def node_rebalance (t : BTree α) : BTree α :=
  if node_imbalanced t 5 2 false then
    if node_imbalanced (t.child false) 2 3 false then rotation t true
    else double_rotation t true
  else if node_imbalanced t 5 2 true then
    if node_imbalanced (t.child true) 2 3 true then rotation t false
    else double_rotation t false
  else t

/-- `walk(node, dir, fnc)`: the in-order (`dir = 0`) or reverse
(`dir = 1`) sequence of elements, as the list of arguments passed to the
callback in order of invocation. -/
def walk : BTree α → Bool → List α
  | .nil, _ => []
  | .node c0 c1 _ v, false => walk c0 false ++ v :: walk c1 false
  | .node c0 c1 _ v, true => walk c1 true ++ v :: walk c0 true

/-- The in-order element sequence (`walk_in_order` at the tree level). -/
def inorder (t : BTree α) : List α := walk t false

section Ops

variable (is_match is_less : α → α → Bool)

/-- `sorted_set_search` at the tree level: descends comparing with
`is_match` / `is_less`, maintaining the running 1-based rank `acc`
(started at 1 by the caller): on descending right it adds
`1 + child[0]->size`; on a match it adds `child[0]->size` and returns
the stored element (the element copy the C writes through
`element_copy_p`).  Returns `(none, rank)` when the search falls off at
`NIL`, where `rank` is the final value of the running rank. -/
def search_go : BTree α → α → Nat → Option α × Nat
  | .nil, _, acc => (none, acc)
  | .node c0 c1 _ v, e, acc =>
    if is_match e v then (some v, acc + c0.size)
    else if is_less e v then search_go c0 e acc
    else search_go c1 e (acc + 1 + c0.size)

/-- `sorted_set_search(set, element, ...)` with the running rank started
at 1, as in the C (`*rank_copy_p = 1`). -/
def sorted_set_search (t : BTree α) (e : α) : Option α × Nat :=
  search_go is_match is_less t e 1

/-- `sorted_set_contains`: the boolean result of the pure lookup. -/
def sorted_set_contains (t : BTree α) (e : α) : Bool :=
  (sorted_set_search is_match is_less t e).1.isSome

/-- The rank the keyed search writes through `rank_copy_p` whenever a
rank output is requested — written both on success and on failure. -/
def sorted_set_search_rank (t : BTree α) (e : α) : Nat :=
  (sorted_set_search is_match is_less t e).2

/-- The insertion descent of `sorted_set_insert_or_remove` with
`op_insert = true`: the recursive call is the descent of
`sorted_set_search` with a recorded path; if the element is found the
matched node's payload is overwritten in place (`memcpy`) and nothing
else changes; otherwise a leaf is created at the empty link and, on the
way back up (`search_path_rebalance`), every ancestor is re-sized
(`update_size`) and rebalanced (`node_rebalance`), deepest first.
Returns `(already_inside, new tree)`. -/
def insert_go : BTree α → α → Bool × BTree α
  | .nil, e => (false, leaf_create e)
  | .node c0 c1 s v, e =>
    if is_match e v then (true, .node c0 c1 s e)
    else if is_less e v then
      let r := insert_go c0 e
      if r.1 then (true, .node r.2 c1 s v)
      else (false, node_rebalance (update_size (.node r.2 c1 s v)))
    else
      let r := insert_go c1 e
      if r.1 then (true, .node c0 r.2 s v)
      else (false, node_rebalance (update_size (.node c0 r.2 s v)))

end Ops

/-- The successor descent of `remove_helper` together with the part of
`search_path_rebalance` that unwinds it: removes the leftmost node of a
(real) subtree — descending `while child[0] != NIL`, splicing the
leftmost node's `child[1]` into its owner slot — and re-sizes and
rebalances each ancestor on that descent, deepest first.  Returns the
removed leftmost element and the new subtree; `none` on `NIL` (the C
only reaches this code with a real subtree). -/
def splice_leftmost : BTree α → Option (α × BTree α)
  | .nil => none
  | .node c0 c1 s v =>
    match splice_leftmost c0 with
    | none => some (v, c1)
    | some (m, c02) => some (m, node_rebalance (update_size (.node c02 c1 s v)))

/-- `remove_helper` at the matched node, with the part of
`search_path_rebalance` acting below and at that node: if a child is
`NIL` the other child is spliced into the owner slot (the node itself is
freed and not rebalanced — it is gone); with two real children the
in-order successor's payload is copied over the node's payload, the
successor is spliced out (with rebalancing along the extended path, via
`splice_leftmost`), and then the node itself — which was pushed on the
path with direction 1 — is re-sized and rebalanced. -/
def remove_helper : BTree α → BTree α
  | .nil => .nil
  | .node .nil c1 _ _ => c1
  | .node c0 .nil _ _ => c0
  | .node c0 c1 s _ =>
    match splice_leftmost c1 with
    | none => .nil
    | some (m, c12) => node_rebalance (update_size (.node c0 c12 s m))

section Ops2

variable (is_match is_less : α → α → Bool)

/-- The removal descent of `sorted_set_insert_or_remove` with
`op_insert = false`: on a match, `remove_helper` splices the node out;
on the way back up every remaining ancestor is re-sized and rebalanced
(`search_path_rebalance`).  If the element is not found the tree is
returned unchanged (the C destroys the stacks and does nothing). -/
def remove_go : BTree α → α → Bool × BTree α
  | .nil, _ => (false, .nil)
  | .node c0 c1 s v, e =>
    if is_match e v then (true, remove_helper (.node c0 c1 s v))
    else if is_less e v then
      let r := remove_go c0 e
      if r.1 then (true, node_rebalance (update_size (.node r.2 c1 s v)))
      else (false, .node c0 c1 s v)
    else
      let r := remove_go c1 e
      if r.1 then (true, node_rebalance (update_size (.node c0 r.2 s v)))
      else (false, .node c0 c1 s v)

/-- `sorted_set_insert(set, element, rank_copy_p)`: returns
`already_inside`, the rank written through `rank_copy_p` when requested
(computed by the search before any mutation), and the new tree. -/
def sorted_set_insert (t : BTree α) (e : α) : Bool × Nat × BTree α :=
  ((insert_go is_match is_less t e).1,
   sorted_set_search_rank is_match is_less t e,
   (insert_go is_match is_less t e).2)

/-- `sorted_set_remove(set, element, rank_copy_p)`: returns
`already_inside`, the rank written through `rank_copy_p` when requested,
and the new tree. -/
def sorted_set_remove (t : BTree α) (e : α) : Bool × Nat × BTree α :=
  ((remove_go is_match is_less t e).1,
   sorted_set_search_rank is_match is_less t e,
   (remove_go is_match is_less t e).2)

end Ops2

/-- `sorted_set_search_by_rank`: the order-statistic descent.  Each
iteration first asserts `1 <= rank && rank <= current->size`; the
embedding returns `none` exactly when an assertion fails (at `NIL` the
stored size is 0, so the asserts are unsatisfiable there).  On
`rank == 1 + child[0]->size` the element copy of the current node is
returned; on `rank < ...` it descends left; otherwise it subtracts
`1 + child[0]->size` and descends right. -/
def sorted_set_search_by_rank : BTree α → Nat → Option α
  | .nil, _ => none
  | .node c0 c1 s v, rank =>
    if rank < 1 ∨ s < rank then none
    else if rank = 1 + c0.size then some v
    else if rank < 1 + c0.size then sorted_set_search_by_rank c0 rank
    else sorted_set_search_by_rank c1 (rank - (1 + c0.size))

/-- `sorted_set_get_element_by_rank`: the pure by-rank lookup (no path
recorded, no mutation); returns the element copy, `none` on a
precondition violation (assertion failure). -/
def sorted_set_get_element_by_rank (t : BTree α) (rank : Nat) : Option α :=
  sorted_set_search_by_rank t rank

/-- `sorted_set_remove_by_rank`: the by-rank descent of
`sorted_set_search_by_rank` with a recorded path, then `remove_helper`
at the found node and `search_path_rebalance` up the path.  Returns the
removed element copy and the new tree; `none` on a precondition
violation (assertion failure during the descent). -/
def sorted_set_remove_by_rank : BTree α → Nat → Option (α × BTree α)
  | .nil, _ => none
  | .node c0 c1 s v, rank =>
    if rank < 1 ∨ s < rank then none
    else if rank = 1 + c0.size then some (v, remove_helper (.node c0 c1 s v))
    else if rank < 1 + c0.size then
      (sorted_set_remove_by_rank c0 rank).map
        (fun p => (p.1, node_rebalance (update_size (.node p.2 c1 s v))))
    else
      (sorted_set_remove_by_rank c1 (rank - (1 + c0.size))).map
        (fun p => (p.1, node_rebalance (update_size (.node c0 p.2 s v))))

/-- `sorted_set_create`: the empty set — the root link is the `NIL`
sentinel. -/
def sorted_set_create : BTree α := .nil

/-- `sorted_set_get_num_elements`: `root_p->size` (works on the empty
set because the sentinel stores size 0). -/
def sorted_set_get_num_elements (t : BTree α) : Nat := t.size

/-- `walk_in_order`: invoke the callback on every element in ascending
order; the result is the argument sequence. -/
def walk_in_order (t : BTree α) : List α := walk t false

/-- `walk_in_reverse`: invoke the callback on every element in
descending order. -/
def walk_in_reverse (t : BTree α) : List α := walk t true

/-- Invariant I1 as a recursive checker: every real node stores
`size == 1 + child[0]->size + child[1]->size`, the empty marker having
size 0. -/
def check_I1 : BTree α → Bool
  | .nil => true
  | .node c0 c1 s _ =>
    (s == 1 + c0.size + c1.size) && check_I1 c0 && check_I1 c1

/-- Invariant I3 (weight balance, ratio 5:2) as a recursive checker: no
real node is `node_imbalanced(·, 5, 2, d)` for either direction `d`,
i.e. `5 * (size(child[1-d]) + 1) >= 2 * (size(child[d]) + 1)`. -/
def check_I3 : BTree α → Bool
  | .nil => true
  | .node c0 c1 s v =>
    !(node_imbalanced (.node c0 c1 s v) 5 2 false) &&
    !(node_imbalanced (.node c0 c1 s v) 5 2 true) &&
    check_I3 c0 && check_I3 c1

/-- Both structural invariants together. -/
def Bal (t : BTree α) : Prop := check_I1 t = true ∧ check_I3 t = true

/-- The sets reachable from the empty set by any sequence of
`sorted_set_insert`, `sorted_set_remove`, and `sorted_set_remove_by_rank`
calls (a `sorted_set_remove_by_rank` call that violates its precondition
aborts on an assertion and produces no successor state). -/
inductive Reachable (is_match is_less : α → α → Bool) : BTree α → Prop where
  | empty : Reachable is_match is_less .nil
  | insert (t : BTree α) (e : α) : Reachable is_match is_less t →
      Reachable is_match is_less (sorted_set_insert is_match is_less t e).2.2
  | remove (t : BTree α) (e : α) : Reachable is_match is_less t →
      Reachable is_match is_less (sorted_set_remove is_match is_less t e).2.2
  | remove_by_rank (t t2 : BTree α) (r : Nat) (e : α) :
      Reachable is_match is_less t →
      sorted_set_remove_by_rank t r = some (e, t2) →
      Reachable is_match is_less t2

/-- The payload stored at the root of a subtree (`none` for the `NIL`
sentinel, whose payload must never be read). -/
def element? {α : Type} : BTree α → Option α
  | .nil => none
  | .node _ _ _ v => some v

/-- The tree with payloads erased but structure and stored sizes kept:
two sets have the same `shape` exactly when they have the same tree
shape and size bookkeeping (so a shape-preserving operation performed no
rotation and touched no size field). -/
def shape : BTree α → BTree Unit
  | .nil => .nil
  | .node c0 c1 s _ => .node (shape c0) (shape c1) s ()

/-- A typical instantiation of the user-supplied equality callback: the
source stores `is_match` separately from `is_less` because an element
may be, e.g., a (key, value) record compared on the key alone (see the
comment on `struct sorted_set_s`).  `kmatch key` matches two elements
when their keys coincide. -/
def kmatch {α β : Type} [LinearOrder α] (key : β → α) (a b : β) : Bool :=
  decide (key a = key b)

/-- The corresponding user-supplied strict-order callback: compare the
keys. -/
def kless {α β : Type} [LinearOrder α] (key : β → α) (a b : β) : Bool :=
  decide (key a < key b)

/-- Invariant I2 for keyed comparators: the in-order traversal is
strictly increasing on keys (hence also: no two stored elements match). -/
def KeySorted {α β : Type} [LinearOrder α] (key : β → α) (t : BTree β) : Prop :=
  List.Pairwise (fun x y => key x < key y) (inorder t)

end WBT

namespace WBT

variable {α β : Type}

@[simp] lemma size_nil : (BTree.nil : BTree α).size = 0 := rfl

@[simp] lemma size_node (c0 c1 : BTree α) (s : Nat) (v : α) :
    (BTree.node c0 c1 s v).size = s := rfl

@[simp] lemma child_nil (d : Bool) : (BTree.nil : BTree α).child d = .nil := rfl

@[simp] lemma child_node_false (c0 c1 : BTree α) (s : Nat) (v : α) :
    (BTree.node c0 c1 s v).child false = c0 := rfl

@[simp] lemma child_node_true (c0 c1 : BTree α) (s : Nat) (v : α) :
    (BTree.node c0 c1 s v).child true = c1 := rfl

@[simp] lemma setChild_node_false (c0 c1 c : BTree α) (s : Nat) (v : α) :
    (BTree.node c0 c1 s v).setChild false c = .node c c1 s v := rfl

@[simp] lemma setChild_node_true (c0 c1 c : BTree α) (s : Nat) (v : α) :
    (BTree.node c0 c1 s v).setChild true c = .node c0 c s v := rfl

@[simp] lemma update_size_node (c0 c1 : BTree α) (s : Nat) (v : α) :
    update_size (.node c0 c1 s v) = .node c0 c1 (1 + c0.size + c1.size) v := rfl

@[simp] lemma inorder_nil : inorder (.nil : BTree α) = [] := rfl

@[simp] lemma inorder_node (c0 c1 : BTree α) (s : Nat) (v : α) :
    inorder (.node c0 c1 s v) = inorder c0 ++ v :: inorder c1 := rfl

lemma walk_true_eq_reverse (t : BTree α) : walk t true = (walk t false).reverse := by
  induction t with
  | nil => rfl
  | node c0 c1 s v ih0 ih1 => simp [walk, ih0, ih1]

lemma node_imbalanced_node_false (c0 c1 : BTree α) (s : Nat) (v : α) (n1 n2 : Nat) :
    node_imbalanced (.node c0 c1 s v) n1 n2 false =
      decide (n1 * (c1.size + 1) < n2 * (c0.size + 1)) := rfl

lemma node_imbalanced_node_true (c0 c1 : BTree α) (s : Nat) (v : α) (n1 n2 : Nat) :
    node_imbalanced (.node c0 c1 s v) n1 n2 true =
      decide (n1 * (c0.size + 1) < n2 * (c1.size + 1)) := rfl

lemma check_I1_node_iff (c0 c1 : BTree α) (s : Nat) (v : α) :
    check_I1 (.node c0 c1 s v) = true ↔
      s = 1 + c0.size + c1.size ∧ check_I1 c0 = true ∧ check_I1 c1 = true := by
  simp [check_I1, Bool.and_eq_true, and_assoc]

lemma check_I3_node_iff (c0 c1 : BTree α) (s : Nat) (v : α) :
    check_I3 (.node c0 c1 s v) = true ↔
      2 * (c0.size + 1) ≤ 5 * (c1.size + 1) ∧ 2 * (c1.size + 1) ≤ 5 * (c0.size + 1) ∧
      check_I3 c0 = true ∧ check_I3 c1 = true := by
  simp [check_I3, node_imbalanced, Bool.and_eq_true, and_assoc, Nat.not_lt]

lemma bal_nil : Bal (.nil : BTree α) := ⟨rfl, rfl⟩

lemma bal_node_iff (c0 c1 : BTree α) (s : Nat) (v : α) :
    Bal (.node c0 c1 s v) ↔
      s = 1 + c0.size + c1.size ∧
      2 * (c0.size + 1) ≤ 5 * (c1.size + 1) ∧ 2 * (c1.size + 1) ≤ 5 * (c0.size + 1) ∧
      Bal c0 ∧ Bal c1 := by
  unfold Bal
  rw [check_I1_node_iff, check_I3_node_iff]
  tauto

lemma inorder_length_of_I1 (t : BTree α) (h : check_I1 t = true) :
    (inorder t).length = t.size := by
  induction t with
  | nil => rfl
  | node c0 c1 s v ih0 ih1 =>
    rw [check_I1_node_iff] at h
    simp [ih0 h.2.1, ih1 h.2.2, h.1]
    omega

end WBT

namespace WBT

variable {α β : Type}

/-- Core rebalance lemma: if both children are internally balanced and
the weight imbalance at the parent is within the slack a single
insert/remove step can introduce (at most 5 beyond the 5:2 bound, in
weight units, on either side), then one step of `search_path_rebalance`
— `update_size` followed by `node_rebalance` — yields a fully balanced
subtree of the correct size with the in-order sequence unchanged. -/
lemma rebalance_spec (c0 c1 : BTree α) (s : Nat) (v : α)
    (h0 : Bal c0) (h1 : Bal c1)
    (g0 : 2 * (c0.size + 1) ≤ 5 * (c1.size + 1) + 5)
    (g1 : 2 * (c1.size + 1) ≤ 5 * (c0.size + 1) + 5) :
    Bal (node_rebalance (update_size (.node c0 c1 s v))) ∧
    (node_rebalance (update_size (.node c0 c1 s v))).size = 1 + c0.size + c1.size ∧
    inorder (node_rebalance (update_size (.node c0 c1 s v))) = inorder c0 ++ v :: inorder c1 := by
  rw [update_size_node]
  by_cases hL : 5 * (c1.size + 1) < 2 * (c0.size + 1)
  · -- the 0-child is over-heavy: the dir = 0 test fires
    rcases c0 with _ | ⟨ll, lr, s0, v0⟩
    · simp only [size_nil] at hL g1; omega
    rw [bal_node_iff] at h0
    obtain ⟨hs0, hb01, hb02, hll, hlr⟩ := h0
    have hfire : node_imbalanced
        (BTree.node (BTree.node ll lr s0 v0) c1 (1 + (BTree.node ll lr s0 v0).size + c1.size) v)
        5 2 false = true := by
      rw [node_imbalanced_node_false]
      simpa using hL
    by_cases hS : 2 * (lr.size + 1) < 3 * (ll.size + 1)
    · -- same-side heavy inner child: single rotation
      have hsingle : node_imbalanced
          ((BTree.node (BTree.node ll lr s0 v0) c1
            (1 + (BTree.node ll lr s0 v0).size + c1.size) v).child false) 2 3 false = true := by
        rw [child_node_false, node_imbalanced_node_false]
        simpa using hS
      simp only [node_rebalance, hfire, hsingle, if_true]
      simp only [rotation, Bool.not_true, child_node_false, child_node_true,
        setChild_node_false, setChild_node_true, update_size_node]
      try simp only [size_node] at *
      refine ⟨?_, by first | omega | (simp only [size_node]; try omega), by simp [List.append_assoc]⟩
      rw [bal_node_iff]
      refine ⟨by first | omega | (simp only [size_node]; try omega), by first | omega | (simp only [size_node]; try omega),
        by first | omega | (simp only [size_node]; try omega), hll, ?_⟩
      rw [bal_node_iff]
      exact ⟨by first | omega | (simp only [size_node]; try omega), by first | omega | (simp only [size_node]; try omega), by first | omega | (simp only [size_node]; try omega), hlr, h1⟩
    · -- otherwise: double rotation; the inner child is then real
      rcases lr with _ | ⟨m0, m1, sm, vm⟩
      · simp only [size_nil] at hS; omega
      rw [bal_node_iff] at hlr
      obtain ⟨hsm, hbm1, hbm2, hm0, hm1⟩ := hlr
      have hsingle : node_imbalanced
          ((BTree.node (BTree.node ll (BTree.node m0 m1 sm vm) s0 v0) c1
            (1 + (BTree.node ll (BTree.node m0 m1 sm vm) s0 v0).size + c1.size) v).child false)
            2 3 false = false := by
        rw [child_node_false, node_imbalanced_node_false]
        simpa using hS
      simp only [node_rebalance, hfire, hsingle, if_true, Bool.false_eq_true, if_false]
      simp only [double_rotation, Bool.not_true, child_node_false, child_node_true,
        setChild_node_false, setChild_node_true, update_size_node]
      try simp only [size_node] at *
      refine ⟨?_, by first | omega | (simp only [size_node]; try omega), by simp [List.append_assoc]⟩
      rw [bal_node_iff]
      refine ⟨by first | omega | (simp only [size_node]; try omega), by first | omega | (simp only [size_node]; try omega),
        by first | omega | (simp only [size_node]; try omega), ?_, ?_⟩
      · rw [bal_node_iff]
        exact ⟨by first | omega | (simp only [size_node]; try omega), by first | omega | (simp only [size_node]; try omega), by first | omega | (simp only [size_node]; try omega), hll, hm0⟩
      · rw [bal_node_iff]
        exact ⟨by first | omega | (simp only [size_node]; try omega), by first | omega | (simp only [size_node]; try omega), by first | omega | (simp only [size_node]; try omega), hm1, h1⟩
  · by_cases hR : 5 * (c0.size + 1) < 2 * (c1.size + 1)
    · -- the 1-child is over-heavy: the dir = 0 test cannot fire, dir = 1 fires
      rcases c1 with _ | ⟨rl, rr, s1, v1⟩
      · simp only [size_nil] at hR g0; omega
      rw [bal_node_iff] at h1
      obtain ⟨hs1, hb11, hb12, hrl, hrr⟩ := h1
      have hnofire : node_imbalanced
          (BTree.node c0 (BTree.node rl rr s1 v1) (1 + c0.size + (BTree.node rl rr s1 v1).size) v)
          5 2 false = false := by
        rw [node_imbalanced_node_false]
        simpa using hL
      have hfire : node_imbalanced
          (BTree.node c0 (BTree.node rl rr s1 v1) (1 + c0.size + (BTree.node rl rr s1 v1).size) v)
          5 2 true = true := by
        rw [node_imbalanced_node_true]
        simpa using hR
      by_cases hS : 2 * (rl.size + 1) < 3 * (rr.size + 1)
      · -- single rotation in direction 0
        have hsingle : node_imbalanced
            ((BTree.node c0 (BTree.node rl rr s1 v1)
              (1 + c0.size + (BTree.node rl rr s1 v1).size) v).child true) 2 3 true = true := by
          rw [child_node_true, node_imbalanced_node_true]
          simpa using hS
        simp only [node_rebalance, hnofire, hfire, hsingle, if_true, Bool.false_eq_true, if_false]
        simp only [rotation, Bool.not_false, child_node_false, child_node_true,
          setChild_node_false, setChild_node_true, update_size_node]
        try simp only [size_node] at *
        refine ⟨?_, by first | omega | (simp only [size_node]; try omega), by simp [List.append_assoc]⟩
        rw [bal_node_iff]
        refine ⟨by first | omega | (simp only [size_node]; try omega), by first | omega | (simp only [size_node]; try omega),
          by first | omega | (simp only [size_node]; try omega), ?_, hrr⟩
        rw [bal_node_iff]
        exact ⟨by first | omega | (simp only [size_node]; try omega), by first | omega | (simp only [size_node]; try omega), by first | omega | (simp only [size_node]; try omega), h0, hrl⟩
      · -- double rotation in direction 0
        rcases rl with _ | ⟨m0, m1, sm, vm⟩
        · simp only [size_nil] at hS; omega
        rw [bal_node_iff] at hrl
        obtain ⟨hsm, hbm1, hbm2, hm0, hm1⟩ := hrl
        have hsingle : node_imbalanced
            ((BTree.node c0 (BTree.node (BTree.node m0 m1 sm vm) rr s1 v1)
              (1 + c0.size + (BTree.node (BTree.node m0 m1 sm vm) rr s1 v1).size) v).child true)
              2 3 true = false := by
          rw [child_node_true, node_imbalanced_node_true]
          simpa using hS
        simp only [node_rebalance, hnofire, hfire, hsingle, if_true, Bool.false_eq_true, if_false]
        simp only [double_rotation, Bool.not_false, child_node_false, child_node_true,
          setChild_node_false, setChild_node_true, update_size_node]
        try simp only [size_node] at *
        refine ⟨?_, by first | omega | (simp only [size_node]; try omega), by simp [List.append_assoc]⟩
        rw [bal_node_iff]
        refine ⟨by first | omega | (simp only [size_node]; try omega), by first | omega | (simp only [size_node]; try omega),
          by first | omega | (simp only [size_node]; try omega), ?_, ?_⟩
        · rw [bal_node_iff]
          exact ⟨by first | omega | (simp only [size_node]; try omega), by first | omega | (simp only [size_node]; try omega), by first | omega | (simp only [size_node]; try omega), h0, hm0⟩
        · rw [bal_node_iff]
          exact ⟨by first | omega | (simp only [size_node]; try omega), by first | omega | (simp only [size_node]; try omega), by first | omega | (simp only [size_node]; try omega), hm1, hrr⟩
    · -- neither direction fires: the node is already balanced
      have hnofire0 : node_imbalanced (BTree.node c0 c1 (1 + c0.size + c1.size) v)
          5 2 false = false := by
        rw [node_imbalanced_node_false]
        simpa using hL
      have hnofire1 : node_imbalanced (BTree.node c0 c1 (1 + c0.size + c1.size) v)
          5 2 true = false := by
        rw [node_imbalanced_node_true]
        simpa using hR
      simp only [node_rebalance, hnofire0, hnofire1, Bool.false_eq_true, if_false]
      refine ⟨?_, by simp only [size_node], by simp⟩
      rw [bal_node_iff]
      exact ⟨rfl, by first | omega | (simp only [size_node]; try omega), by first | omega | (simp only [size_node]; try omega), h0, h1⟩

end WBT

namespace WBT

variable {α β : Type}

lemma bal_leaf (e : α) : Bal (leaf_create e) := ⟨rfl, rfl⟩

lemma splice_leftmost_node (c0 c1 : BTree α) (s : Nat) (v : α) :
    splice_leftmost (.node c0 c1 s v) = match splice_leftmost c0 with
      | none => some (v, c1)
      | some (m, c02) => some (m, node_rebalance (update_size (.node c02 c1 s v))) := rfl

/-- Insertion preserves both invariants; the size grows by 1 exactly
when the element was not already inside. -/
lemma insert_go_spec (is_match is_less : α → α → Bool) (e : α) (t : BTree α) (h : Bal t) :
    Bal (insert_go is_match is_less t e).2 ∧
    (insert_go is_match is_less t e).2.size
      = t.size + (if (insert_go is_match is_less t e).1 then 0 else 1) := by
  induction t with
  | nil => exact ⟨bal_leaf e, rfl⟩
  | node c0 c1 s v ih0 ih1 =>
    rw [bal_node_iff] at h
    obtain ⟨hs, hb0, hb1, h0, h1⟩ := h
    obtain ⟨ihb0, ihs0⟩ := ih0 h0
    obtain ⟨ihb1, ihs1⟩ := ih1 h1
    by_cases hm : is_match e v = true
    · refine ⟨?_, by simp [insert_go, hm]⟩
      simp only [insert_go, hm, if_true]
      rw [bal_node_iff]
      exact ⟨hs, hb0, hb1, h0, h1⟩
    · simp only [Bool.not_eq_true] at hm
      by_cases hl : is_less e v = true
      · cases hf : (insert_go is_match is_less c0 e).1 with
        | true =>
          simp only [insert_go, hm, hl, hf, Bool.false_eq_true, if_false, if_true]
          rw [hf, if_pos rfl] at ihs0
          refine ⟨?_, by simp only [size_node]; omega⟩
          rw [bal_node_iff]
          exact ⟨by first | omega | (simp only [size_node]; try omega), by first | omega | (simp only [size_node]; try omega), by first | omega | (simp only [size_node]; try omega), ihb0, h1⟩
        | false =>
          simp only [insert_go, hm, hl, hf, Bool.false_eq_true, if_false, if_true]
          rw [hf, if_neg (by simp)] at ihs0
          have hcore := rebalance_spec (insert_go is_match is_less c0 e).2 c1 s v ihb0 h1
            (by first | omega | (simp only [size_node]; try omega)) (by first | omega | (simp only [size_node]; try omega))
          exact ⟨hcore.1, by rw [hcore.2.1]; simp only [size_node]; omega⟩
      · simp only [Bool.not_eq_true] at hl
        cases hf : (insert_go is_match is_less c1 e).1 with
        | true =>
          simp only [insert_go, hm, hl, hf, Bool.false_eq_true, if_false, if_true]
          rw [hf, if_pos rfl] at ihs1
          refine ⟨?_, by simp only [size_node]; omega⟩
          rw [bal_node_iff]
          exact ⟨by first | omega | (simp only [size_node]; try omega), by first | omega | (simp only [size_node]; try omega), by first | omega | (simp only [size_node]; try omega), h0, ihb1⟩
        | false =>
          simp only [insert_go, hm, hl, hf, Bool.false_eq_true, if_false, if_true]
          rw [hf, if_neg (by simp)] at ihs1
          have hcore := rebalance_spec c0 (insert_go is_match is_less c1 e).2 s v h0 ihb1
            (by first | omega | (simp only [size_node]; try omega)) (by first | omega | (simp only [size_node]; try omega))
          exact ⟨hcore.1, by rw [hcore.2.1]; simp only [size_node]; omega⟩

/-- Removing the leftmost node of a real, balanced subtree: it succeeds,
preserves the invariants, shrinks the size by 1, and removes exactly the
head of the in-order sequence. -/
lemma splice_leftmost_spec (t : BTree α) (h : Bal t) (hne : t ≠ .nil) :
    ∃ m t2, splice_leftmost t = some (m, t2) ∧ Bal t2 ∧ t2.size + 1 = t.size ∧
      inorder t = m :: inorder t2 := by
  induction t with
  | nil => exact absurd rfl hne
  | node c0 c1 s v ih0 ih1 =>
    rw [bal_node_iff] at h
    obtain ⟨hs, hb0, hb1, h0, h1⟩ := h
    cases c0 with
    | nil =>
      refine ⟨v, c1, by rw [splice_leftmost_node]; rfl, h1, ?_, by simp⟩
      simp only [size_nil, size_node] at hs ⊢
      omega
    | node d0 d1 sd vd =>
      obtain ⟨m, t2, hsp, hb2, hsz, hio⟩ := ih0 h0 (by simp)
      simp only [size_node] at hs hb0 hb1 hsz
      have hcore := rebalance_spec t2 c1 s v hb2 h1 (by first | omega | (simp only [size_node]; try omega)) (by first | omega | (simp only [size_node]; try omega))
      refine ⟨m, node_rebalance (update_size (.node t2 c1 s v)), ?_, hcore.1, ?_, ?_⟩
      · rw [splice_leftmost_node, hsp]
      · rw [hcore.2.1]
        simp only [size_node]
        omega
      · rw [hcore.2.2]
        simp [hio]

/-- `remove_helper` at a balanced real node: preserves the invariants,
shrinks the size by 1, and the in-order sequence loses exactly the
node's own element. -/
lemma remove_helper_spec (c0 c1 : BTree α) (s : Nat) (v : α) (h : Bal (.node c0 c1 s v)) :
    Bal (remove_helper (.node c0 c1 s v)) ∧
    (remove_helper (.node c0 c1 s v)).size + 1 = s ∧
    inorder (remove_helper (.node c0 c1 s v)) = inorder c0 ++ inorder c1 := by
  rw [bal_node_iff] at h
  obtain ⟨hs, hb0, hb1, h0, h1⟩ := h
  cases c0 with
  | nil =>
    have hrw : remove_helper (.node .nil c1 s v) = c1 := by
      simp only [remove_helper]
    rw [hrw]
    refine ⟨h1, ?_, by simp⟩
    simp only [size_nil] at hs
    omega
  | node d0 d1 sd vd =>
    cases c1 with
    | nil =>
      have hrw : remove_helper (.node (.node d0 d1 sd vd) .nil s v) = .node d0 d1 sd vd := by
        simp only [remove_helper]
      rw [hrw]
      refine ⟨h0, ?_, by simp⟩
      simp only [size_nil, size_node] at hs ⊢
      omega
    | node e0 e1 se ve =>
      obtain ⟨m, t2, hsp, hb2, hsz, hio⟩ := splice_leftmost_spec (.node e0 e1 se ve) h1 (by simp)
      simp only [size_node] at hs hb0 hb1 hsz
      have hcore := rebalance_spec (.node d0 d1 sd vd) t2 s m h0 hb2
        (by simp only [size_node]; omega) (by simp only [size_node]; omega)
      have hrw : remove_helper (.node (.node d0 d1 sd vd) (.node e0 e1 se ve) s v)
          = node_rebalance (update_size (.node (.node d0 d1 sd vd) t2 s m)) := by
        simp only [remove_helper, hsp]
      rw [hrw]
      refine ⟨hcore.1, ?_, ?_⟩
      · rw [hcore.2.1]
        simp only [size_node]
        omega
      · rw [hcore.2.2, hio]

/-- Keyed removal preserves both invariants; the size shrinks by 1
exactly when a matching element was found. -/
lemma remove_go_spec (is_match is_less : α → α → Bool) (e : α) (t : BTree α) (h : Bal t) :
    Bal (remove_go is_match is_less t e).2 ∧
    (remove_go is_match is_less t e).2.size
      + (if (remove_go is_match is_less t e).1 then 1 else 0) = t.size := by
  induction t with
  | nil => exact ⟨bal_nil, rfl⟩
  | node c0 c1 s v ih0 ih1 =>
    have hbal := h
    rw [bal_node_iff] at h
    obtain ⟨hs, hb0, hb1, h0, h1⟩ := h
    obtain ⟨ihb0, ihs0⟩ := ih0 h0
    obtain ⟨ihb1, ihs1⟩ := ih1 h1
    by_cases hm : is_match e v = true
    · have hrh := remove_helper_spec c0 c1 s v hbal
      simp only [remove_go, hm, if_true]
      exact ⟨hrh.1, by simp only [size_node]; omega⟩
    · simp only [Bool.not_eq_true] at hm
      by_cases hl : is_less e v = true
      · cases hf : (remove_go is_match is_less c0 e).1 with
        | true =>
          simp only [remove_go, hm, hl, hf, Bool.false_eq_true, if_false, if_true]
          rw [hf, if_pos rfl] at ihs0
          have hcore := rebalance_spec (remove_go is_match is_less c0 e).2 c1 s v ihb0 h1
            (by first | omega | (simp only [size_node]; try omega)) (by first | omega | (simp only [size_node]; try omega))
          exact ⟨hcore.1, by rw [hcore.2.1]; simp only [size_node]; omega⟩
        | false =>
          simp only [remove_go, hm, hl, hf, Bool.false_eq_true, if_false, if_true]
          exact ⟨hbal, by simp only [size_node]; omega⟩
      · simp only [Bool.not_eq_true] at hl
        cases hf : (remove_go is_match is_less c1 e).1 with
        | true =>
          simp only [remove_go, hm, hl, hf, Bool.false_eq_true, if_false, if_true]
          rw [hf, if_pos rfl] at ihs1
          have hcore := rebalance_spec c0 (remove_go is_match is_less c1 e).2 s v h0 ihb1
            (by first | omega | (simp only [size_node]; try omega)) (by first | omega | (simp only [size_node]; try omega))
          exact ⟨hcore.1, by rw [hcore.2.1]; simp only [size_node]; omega⟩
        | false =>
          simp only [remove_go, hm, hl, hf, Bool.false_eq_true, if_false, if_true]
          exact ⟨hbal, by simp only [size_node]; omega⟩

/-- Removal by rank preserves both invariants and shrinks the size
by 1. -/
lemma remove_by_rank_bal (t : BTree α) (h : Bal t) :
    ∀ r e t2, sorted_set_remove_by_rank t r = some (e, t2) → Bal t2 ∧ t2.size + 1 = t.size := by
  induction t with
  | nil => intro r e t2 hr; simp [sorted_set_remove_by_rank] at hr
  | node c0 c1 s v ih0 ih1 =>
    intro r e t2 hr
    have hbal := h
    rw [bal_node_iff] at h
    obtain ⟨hs, hb0, hb1, h0, h1⟩ := h
    rw [sorted_set_remove_by_rank] at hr
    by_cases ha : r < 1 ∨ s < r
    · rw [if_pos ha] at hr; exact absurd hr (by simp)
    rw [if_neg ha] at hr
    by_cases he : r = 1 + c0.size
    · rw [if_pos he] at hr
      simp only [Option.some.injEq, Prod.mk.injEq] at hr
      obtain ⟨rfl, rfl⟩ := hr
      have hrh := remove_helper_spec c0 c1 s v hbal
      exact ⟨hrh.1, by simp only [size_node]; omega⟩
    rw [if_neg he] at hr
    by_cases hlt : r < 1 + c0.size
    · rw [if_pos hlt] at hr
      obtain ⟨⟨e2, t3⟩, hr0, heq⟩ := Option.map_eq_some'.mp hr
      obtain ⟨hbal3, hsz3⟩ := ih0 h0 r e2 t3 hr0
      have hcore := rebalance_spec t3 c1 s v hbal3 h1 (by first | omega | (simp only [size_node]; try omega)) (by first | omega | (simp only [size_node]; try omega))
      simp only [Prod.mk.injEq] at heq
      obtain ⟨rfl, rfl⟩ := heq
      exact ⟨hcore.1, by rw [hcore.2.1]; simp only [size_node]; omega⟩
    · rw [if_neg hlt] at hr
      obtain ⟨⟨e2, t3⟩, hr0, heq⟩ := Option.map_eq_some'.mp hr
      obtain ⟨hbal3, hsz3⟩ := ih1 h1 _ e2 t3 hr0
      have hcore := rebalance_spec c0 t3 s v h0 hbal3 (by first | omega | (simp only [size_node]; try omega)) (by first | omega | (simp only [size_node]; try omega))
      simp only [Prod.mk.injEq] at heq
      obtain ⟨rfl, rfl⟩ := heq
      exact ⟨hcore.1, by rw [hcore.2.1]; simp only [size_node]; omega⟩

/-- Every reachable set satisfies both structural invariants. -/
lemma bal_of_reachable (is_match is_less : α → α → Bool) (t : BTree α)
    (h : Reachable is_match is_less t) : Bal t := by
  induction h with
  | empty => exact bal_nil
  | insert t e _ ih => exact (insert_go_spec is_match is_less e t ih).1
  | remove t e _ ih => exact (remove_go_spec is_match is_less e t ih).1
  | remove_by_rank t t2 r e _ hr ih => exact (remove_by_rank_bal t ih r e t2 hr).1

end WBT

namespace WBT

section Keyed

variable {α β : Type} [LinearOrder α] (key : β → α)

lemma kmatch_iff (a b : β) : kmatch key a b = true ↔ key a = key b := by
  simp [kmatch]

lemma kless_iff (a b : β) : kless key a b = true ↔ key a < key b := by
  simp [kless]

lemma keySorted_nil : KeySorted key (.nil : BTree β) := List.Pairwise.nil

lemma keySorted_node_iff (c0 c1 : BTree β) (s : Nat) (v : β) :
    KeySorted key (.node c0 c1 s v) ↔
      KeySorted key c0 ∧ KeySorted key c1 ∧
      (∀ x ∈ inorder c0, key x < key v) ∧ (∀ y ∈ inorder c1, key v < key y) := by
  unfold KeySorted
  rw [inorder_node, List.pairwise_append]
  simp only [List.pairwise_cons, List.mem_cons]
  constructor
  · rintro ⟨h0, ⟨hv, h1⟩, hcross⟩
    exact ⟨h0, h1, fun x hx => hcross x hx v (Or.inl rfl), hv⟩
  · rintro ⟨h0, h1, hlt, hgt⟩
    refine ⟨h0, ⟨hgt, h1⟩, ?_⟩
    rintro x hx b (rfl | hb)
    · exact hlt x hx
    · exact lt_trans (hlt x hx) (hgt b hb)

/-- What the keyed search finds: `none` exactly when no stored element
matches, and on success the returned element copy is a stored element
with the sought key. -/
lemma search_go_found_spec (t : BTree β) (hs : KeySorted key t) (e : β) (acc : Nat) :
    ((search_go (kmatch key) (kless key) t e acc).1 = none →
      ∀ x ∈ inorder t, key x ≠ key e) ∧
    (∀ x, (search_go (kmatch key) (kless key) t e acc).1 = some x →
      x ∈ inorder t ∧ key x = key e) := by
  induction t generalizing acc with
  | nil => exact ⟨fun _ x hx => absurd hx (by simp), fun x hx => by simp [search_go] at hx⟩
  | node c0 c1 s v ih0 ih1 =>
    rw [keySorted_node_iff] at hs
    obtain ⟨hs0, hs1, hlt, hgt⟩ := hs
    by_cases hm : key e = key v
    · have hmb : kmatch key e v = true := by rw [kmatch_iff]; exact hm
      constructor
      · intro hnone
        rw [search_go, if_pos hmb] at hnone
        exact absurd hnone (by simp)
      · intro x hx
        rw [search_go, if_pos hmb] at hx
        simp only [Option.some.injEq] at hx
        subst hx
        exact ⟨by simp, hm.symm⟩
    · have hmb : kmatch key e v = false := by simp [kmatch, hm]
      by_cases hl : key e < key v
      · have hlb : kless key e v = true := by rw [kless_iff]; exact hl
        have heq : (search_go (kmatch key) (kless key) (.node c0 c1 s v) e acc)
            = search_go (kmatch key) (kless key) c0 e acc := by
          rw [search_go, if_neg (by simp [hmb]), if_pos hlb]
        rw [heq]
        obtain ⟨ihn, ihs⟩ := ih0 hs0 acc
        constructor
        · intro hnone x hx
          rw [inorder_node] at hx
          rcases List.mem_append.mp hx with hx0 | hx1
          · exact ihn hnone x hx0
          · rcases List.mem_cons.mp hx1 with rfl | hx1
            · exact fun hc => hm (hc.symm)
            · intro hc
              exact absurd (hc ▸ hl) (lt_asymm (hgt x hx1))
        · intro x hx
          obtain ⟨hmem, hkey⟩ := ihs x hx
          exact ⟨by rw [inorder_node]; exact List.mem_append.mpr (Or.inl hmem), hkey⟩
      · have hvlt : key v < key e := by
          rcases lt_trichotomy (key e) (key v) with h | h | h
          · exact absurd h hl
          · exact absurd h hm
          · exact h
        have hlb : kless key e v = false := by simp [kless, hl]
        have heq : (search_go (kmatch key) (kless key) (.node c0 c1 s v) e acc)
            = search_go (kmatch key) (kless key) c1 e (acc + 1 + c0.size) := by
          rw [search_go, if_neg (by simp [hmb]), if_neg (by simp [hlb])]
        rw [heq]
        obtain ⟨ihn, ihs⟩ := ih1 hs1 (acc + 1 + c0.size)
        constructor
        · intro hnone x hx
          rw [inorder_node] at hx
          rcases List.mem_append.mp hx with hx0 | hx1
          · intro hc
            exact absurd (hc ▸ hvlt) (lt_asymm (hlt x hx0))
          · rcases List.mem_cons.mp hx1 with rfl | hx1
            · exact fun hc => hm (hc.symm)
            · exact ihn hnone x hx1
        · intro x hx
          obtain ⟨hmem, hkey⟩ := ihs x hx
          refine ⟨?_, hkey⟩
          rw [inorder_node]
          exact List.mem_append.mpr (Or.inr (List.mem_cons.mpr (Or.inr hmem)))

/-- The keyed search reports found exactly when some stored element
matches the sought key. -/
lemma search_go_isSome_iff (t : BTree β) (hs : KeySorted key t) (e : β) (acc : Nat) :
    (search_go (kmatch key) (kless key) t e acc).1.isSome = true ↔
      ∃ x ∈ inorder t, key x = key e := by
  obtain ⟨hnone, hsome⟩ := search_go_found_spec key t hs e acc
  constructor
  · intro h
    obtain ⟨x, hx⟩ := Option.isSome_iff_exists.mp h
    obtain ⟨hmem, hkey⟩ := hsome x hx
    exact ⟨x, hmem, hkey⟩
  · intro ⟨x, hmem, hkey⟩
    cases ho : (search_go (kmatch key) (kless key) t e acc).1 with
    | none => exact absurd hkey (hnone ho x hmem)
    | some y => simp

/-- The rank the keyed search computes (on success and on failure
alike): the running rank plus the number of stored elements with key
strictly below the sought key. -/
lemma search_go_rank (t : BTree β) (h1 : check_I1 t = true) (hs : KeySorted key t) (e : β)
    (acc : Nat) :
    (search_go (kmatch key) (kless key) t e acc).2
      = acc + (inorder t).countP (fun x => decide (key x < key e)) := by
  induction t generalizing acc with
  | nil => simp [search_go]
  | node c0 c1 s v ih0 ih1 =>
    rw [check_I1_node_iff] at h1
    obtain ⟨hsz, h10, h11⟩ := h1
    rw [keySorted_node_iff] at hs
    obtain ⟨hs0, hs1, hlt, hgt⟩ := hs
    have hlen0 : (inorder c0).length = c0.size := inorder_length_of_I1 c0 h10
    by_cases hm : key e = key v
    · have hmb : kmatch key e v = true := by rw [kmatch_iff]; exact hm
      rw [search_go, if_pos hmb]
      simp only [inorder_node, List.countP_append, List.countP_cons]
      have hc0 : (inorder c0).countP (fun x => decide (key x < key e)) = c0.size := by
        rw [← hlen0]
        apply List.countP_eq_length.mpr
        intro x hx
        simpa using hm ▸ hlt x hx
      have hc1 : (inorder c1).countP (fun x => decide (key x < key e)) = 0 := by
        apply List.countP_eq_zero.mpr
        intro x hx
        simp only [decide_eq_true_eq]
        exact fun hc => absurd (hm ▸ hgt x hx) (lt_asymm hc)
      have hv : (decide (key v < key e) : Bool) = false := by
        simp [hm.symm]
      rw [hc0, hc1, hv]
      simp
    · have hmb : kmatch key e v = false := by simp [kmatch, hm]
      by_cases hl : key e < key v
      · have hlb : kless key e v = true := by rw [kless_iff]; exact hl
        rw [search_go, if_neg (by simp [hmb]), if_pos hlb, ih0 h10 hs0 acc]
        simp only [inorder_node, List.countP_append, List.countP_cons]
        have hc1 : (inorder c1).countP (fun x => decide (key x < key e)) = 0 := by
          apply List.countP_eq_zero.mpr
          intro x hx
          simp only [decide_eq_true_eq]
          exact fun hc => absurd (lt_trans hl (hgt x hx)) (lt_asymm hc)
        have hv : (decide (key v < key e) : Bool) = false := by
          simp only [decide_eq_false_iff_not]
          exact fun hc => absurd hc (lt_asymm hl)
        rw [hc1, hv]
        simp
      · have hvlt : key v < key e := by
          rcases lt_trichotomy (key e) (key v) with h | h | h
          · exact absurd h hl
          · exact absurd h hm
          · exact h
        have hlb : kless key e v = false := by simp [kless, hl]
        rw [search_go, if_neg (by simp [hmb]), if_neg (by simp [hlb]),
          ih1 h11 hs1 (acc + 1 + c0.size)]
        simp only [inorder_node, List.countP_append, List.countP_cons]
        have hc0 : (inorder c0).countP (fun x => decide (key x < key e)) = c0.size := by
          rw [← hlen0]
          apply List.countP_eq_length.mpr
          intro x hx
          simpa using lt_trans (hlt x hx) hvlt
        have hv : (decide (key v < key e) : Bool) = true := by simpa using hvlt
        rw [hc0, hv]
        simp
        omega

end Keyed

end WBT

namespace WBT

section InsertSem

variable {α β : Type}

lemma insert_go_fst (is_match is_less : α → α → Bool) (c0 c1 : BTree α) (s : Nat) (v e : α) :
    (insert_go is_match is_less (.node c0 c1 s v) e).1 =
      if is_match e v then true
      else if is_less e v then (insert_go is_match is_less c0 e).1
      else (insert_go is_match is_less c1 e).1 := by
  rw [insert_go]
  by_cases hm : is_match e v = true
  · simp [hm]
  · simp only [Bool.not_eq_true] at hm
    by_cases hl : is_less e v = true
    · simp only [hm, hl, Bool.false_eq_true, if_false, if_true]
      cases (insert_go is_match is_less c0 e).1 <;> simp
    · simp only [Bool.not_eq_true] at hl
      simp only [hm, hl, Bool.false_eq_true, if_false]
      cases (insert_go is_match is_less c1 e).1 <;> simp

lemma remove_go_fst (is_match is_less : α → α → Bool) (c0 c1 : BTree α) (s : Nat) (v e : α) :
    (remove_go is_match is_less (.node c0 c1 s v) e).1 =
      if is_match e v then true
      else if is_less e v then (remove_go is_match is_less c0 e).1
      else (remove_go is_match is_less c1 e).1 := by
  rw [remove_go]
  by_cases hm : is_match e v = true
  · simp [hm]
  · simp only [Bool.not_eq_true] at hm
    by_cases hl : is_less e v = true
    · simp only [hm, hl, Bool.false_eq_true, if_false, if_true]
      cases (remove_go is_match is_less c0 e).1 <;> simp
    · simp only [Bool.not_eq_true] at hl
      simp only [hm, hl, Bool.false_eq_true, if_false]
      cases (remove_go is_match is_less c1 e).1 <;> simp

/-- The insertion descent and the plain search agree on whether the
element is already inside (they take the same branch at every node). -/
lemma insert_go_fst_eq_search (is_match is_less : α → α → Bool) (t : BTree α) (e : α)
    (acc : Nat) :
    (insert_go is_match is_less t e).1 = (search_go is_match is_less t e acc).1.isSome := by
  induction t generalizing acc with
  | nil => rfl
  | node c0 c1 s v ih0 ih1 =>
    rw [insert_go_fst, search_go]
    by_cases hm : is_match e v = true
    · simp [hm]
    · simp only [Bool.not_eq_true] at hm
      by_cases hl : is_less e v = true
      · simp only [hm, hl, Bool.false_eq_true, if_false, if_true]
        exact ih0 acc
      · simp only [Bool.not_eq_true] at hl
        simp only [hm, hl, Bool.false_eq_true, if_false]
        exact ih1 (acc + 1 + c0.size)

/-- The removal descent and the plain search agree on whether the
element is inside. -/
lemma remove_go_fst_eq_search (is_match is_less : α → α → Bool) (t : BTree α) (e : α)
    (acc : Nat) :
    (remove_go is_match is_less t e).1 = (search_go is_match is_less t e acc).1.isSome := by
  induction t generalizing acc with
  | nil => rfl
  | node c0 c1 s v ih0 ih1 =>
    rw [remove_go_fst, search_go]
    by_cases hm : is_match e v = true
    · simp [hm]
    · simp only [Bool.not_eq_true] at hm
      by_cases hl : is_less e v = true
      · simp only [hm, hl, Bool.false_eq_true, if_false, if_true]
        exact ih0 acc
      · simp only [Bool.not_eq_true] at hl
        simp only [hm, hl, Bool.false_eq_true, if_false]
        exact ih1 (acc + 1 + c0.size)

/-- When the element was already inside, insertion only overwrites one
payload: the tree shape and every stored size are unchanged, and in
particular no rotation happened. -/
lemma insert_go_found_shape (is_match is_less : α → α → Bool) (t : BTree α) (e : α)
    (h : (insert_go is_match is_less t e).1 = true) :
    shape (insert_go is_match is_less t e).2 = shape t := by
  induction t with
  | nil => exact absurd h (by simp [insert_go])
  | node c0 c1 s v ih0 ih1 =>
    by_cases hm : is_match e v = true
    · simp only [insert_go, hm, if_true, shape]
    · simp only [Bool.not_eq_true] at hm
      by_cases hl : is_less e v = true
      · rw [insert_go_fst] at h
        simp only [hm, hl, Bool.false_eq_true, if_false, if_true] at h
        simp only [insert_go, hm, hl, Bool.false_eq_true, if_false, if_true, h, shape]
        rw [ih0 h]
      · simp only [Bool.not_eq_true] at hl
        rw [insert_go_fst] at h
        simp only [hm, hl, Bool.false_eq_true, if_false] at h
        simp only [insert_go, hm, hl, Bool.false_eq_true, if_false, if_true, h, shape]
        rw [ih1 h]

/-- When the element is not inside, removal is a no-op: the tree is
returned unchanged. -/
lemma remove_go_not_found_eq (is_match is_less : α → α → Bool) (t : BTree α) (e : α)
    (h : (remove_go is_match is_less t e).1 = false) :
    (remove_go is_match is_less t e).2 = t := by
  induction t with
  | nil => rfl
  | node c0 c1 s v ih0 ih1 =>
    by_cases hm : is_match e v = true
    · rw [remove_go_fst] at h
      simp [hm] at h
    · simp only [Bool.not_eq_true] at hm
      by_cases hl : is_less e v = true
      · rw [remove_go_fst] at h
        simp only [hm, hl, Bool.false_eq_true, if_false, if_true] at h
        simp only [remove_go, hm, hl, Bool.false_eq_true, if_false, if_true, h]
      · simp only [Bool.not_eq_true] at hl
        rw [remove_go_fst] at h
        simp only [hm, hl, Bool.false_eq_true, if_false] at h
        simp only [remove_go, hm, hl, Bool.false_eq_true, if_false, h]

end InsertSem

end WBT

namespace WBT

section KeyedSem

variable {α β : Type} [LinearOrder α] (key : β → α)

/-- Overwrite semantics: when a match exists, the new in-order sequence
is the old one with the (unique) matching element's payload replaced by
the inserted element. -/
lemma insert_go_found_inorder (t : BTree β) (hs : KeySorted key t) (e : β)
    (h : (insert_go (kmatch key) (kless key) t e).1 = true) :
    inorder (insert_go (kmatch key) (kless key) t e).2
      = (inorder t).map (fun x => if key x = key e then e else x) := by
  induction t with
  | nil => exact absurd h (by simp [insert_go])
  | node c0 c1 s v ih0 ih1 =>
    rw [keySorted_node_iff] at hs
    obtain ⟨hs0, hs1, hlt, hgt⟩ := hs
    by_cases hm : key e = key v
    · have hmb : kmatch key e v = true := by rw [kmatch_iff]; exact hm
      simp only [insert_go, hmb, if_true, inorder_node, List.map_append, List.map_cons]
      have h0 : (inorder c0).map (fun x => if key x = key e then e else x) = inorder c0 := by
        rw [List.map_congr_left (g := id) ?_, List.map_id]
        intro x hx
        simp only [id]
        rw [if_neg (ne_of_lt (hm ▸ hlt x hx))]
      have h1 : (inorder c1).map (fun x => if key x = key e then e else x) = inorder c1 := by
        rw [List.map_congr_left (g := id) ?_, List.map_id]
        intro x hx
        simp only [id]
        rw [if_neg (ne_of_gt (hm ▸ hgt x hx))]
      rw [h0, h1, if_pos hm.symm]
    · have hmb : kmatch key e v = false := by simp [kmatch, hm]
      by_cases hl : key e < key v
      · have hlb : kless key e v = true := by rw [kless_iff]; exact hl
        have hf : (insert_go (kmatch key) (kless key) c0 e).1 = true := by
          rw [insert_go_fst] at h
          simpa [hmb, hlb] using h
        simp only [insert_go, hmb, hlb, Bool.false_eq_true, if_false, if_true, hf,
          inorder_node, List.map_append, List.map_cons]
        rw [ih0 hs0 hf]
        have h1 : (inorder c1).map (fun x => if key x = key e then e else x) = inorder c1 := by
          rw [List.map_congr_left (g := id) ?_, List.map_id]
          intro x hx
          simp only [id]
          rw [if_neg (ne_of_gt (lt_trans hl (hgt x hx)))]
        rw [h1, if_neg (fun hc => hm hc.symm)]
      · have hvlt : key v < key e := by
          rcases lt_trichotomy (key e) (key v) with hx | hx | hx
          · exact absurd hx hl
          · exact absurd hx hm
          · exact hx
        have hlb : kless key e v = false := by simp [kless, hl]
        have hf : (insert_go (kmatch key) (kless key) c1 e).1 = true := by
          rw [insert_go_fst] at h
          simpa [hmb, hlb] using h
        simp only [insert_go, hmb, hlb, Bool.false_eq_true, if_false, if_true, hf,
          inorder_node, List.map_append, List.map_cons]
        rw [ih1 hs1 hf]
        have h0 : (inorder c0).map (fun x => if key x = key e then e else x) = inorder c0 := by
          rw [List.map_congr_left (g := id) ?_, List.map_id]
          intro x hx
          simp only [id]
          rw [if_neg (ne_of_lt (lt_trans (hlt x hx) hvlt))]
        rw [h0, if_neg (ne_of_lt hvlt)]

/-- New-element semantics: when no match exists, the new in-order
sequence is the old one with the new element spliced in at its ordered
position (the failed search's empty link). -/
lemma insert_go_not_found_inorder (t : BTree β) (hb : Bal t) (hs : KeySorted key t) (e : β)
    (h : (insert_go (kmatch key) (kless key) t e).1 = false) :
    ∃ l1 l2, inorder t = l1 ++ l2 ∧
      inorder (insert_go (kmatch key) (kless key) t e).2 = l1 ++ e :: l2 ∧
      (∀ x ∈ l1, key x < key e) ∧ (∀ x ∈ l2, key e < key x) := by
  induction t with
  | nil =>
    exact ⟨[], [], rfl, by simp [insert_go, leaf_create, inorder, walk], by simp, by simp⟩
  | node c0 c1 s v ih0 ih1 =>
    rw [bal_node_iff] at hb
    obtain ⟨hsz, hb0, hb1, hbl0, hbl1⟩ := hb
    rw [keySorted_node_iff] at hs
    obtain ⟨hs0, hs1, hlt, hgt⟩ := hs
    by_cases hm : key e = key v
    · have hmb : kmatch key e v = true := by rw [kmatch_iff]; exact hm
      rw [insert_go_fst] at h
      simp [hmb] at h
    · have hmb : kmatch key e v = false := by simp [kmatch, hm]
      by_cases hl : key e < key v
      · have hlb : kless key e v = true := by rw [kless_iff]; exact hl
        have hf : (insert_go (kmatch key) (kless key) c0 e).1 = false := by
          rw [insert_go_fst] at h
          simpa [hmb, hlb] using h
        obtain ⟨l1, l2, hsplit, hres, hl1, hl2⟩ := ih0 hbl0 hs0 hf
        obtain ⟨hbal2, hsz2⟩ := insert_go_spec (kmatch key) (kless key) e c0 hbl0
        rw [hf, if_neg (by simp)] at hsz2
        have hcore := rebalance_spec (insert_go (kmatch key) (kless key) c0 e).2 c1 s v
          hbal2 hbl1 (by first | omega | (simp only [size_node]; try omega)) (by first | omega | (simp only [size_node]; try omega))
        refine ⟨l1, l2 ++ v :: inorder c1, ?_, ?_, hl1, ?_⟩
        · rw [inorder_node, hsplit, List.append_assoc]
        · simp only [insert_go, hmb, hlb, Bool.false_eq_true, if_false, if_true, hf]
          rw [hcore.2.2, hres]
          simp [List.append_assoc]
        · intro x hx
          rcases List.mem_append.mp hx with hx | hx
          · exact hl2 x hx
          · rcases List.mem_cons.mp hx with rfl | hx
            · exact hl
            · exact lt_trans hl (hgt x hx)
      · have hvlt : key v < key e := by
          rcases lt_trichotomy (key e) (key v) with hx | hx | hx
          · exact absurd hx hl
          · exact absurd hx hm
          · exact hx
        have hlb : kless key e v = false := by simp [kless, hl]
        have hf : (insert_go (kmatch key) (kless key) c1 e).1 = false := by
          rw [insert_go_fst] at h
          simpa [hmb, hlb] using h
        obtain ⟨l1, l2, hsplit, hres, hl1, hl2⟩ := ih1 hbl1 hs1 hf
        obtain ⟨hbal2, hsz2⟩ := insert_go_spec (kmatch key) (kless key) e c1 hbl1
        rw [hf, if_neg (by simp)] at hsz2
        have hcore := rebalance_spec c0 (insert_go (kmatch key) (kless key) c1 e).2 s v
          hbl0 hbal2 (by first | omega | (simp only [size_node]; try omega)) (by first | omega | (simp only [size_node]; try omega))
        refine ⟨inorder c0 ++ v :: l1, l2, ?_, ?_, ?_, hl2⟩
        · rw [inorder_node, hsplit]
          simp [List.append_assoc]
        · simp only [insert_go, hmb, hlb, Bool.false_eq_true, if_false, if_true, hf]
          rw [hcore.2.2, hres]
          simp [List.append_assoc]
        · intro x hx
          rcases List.mem_append.mp hx with hx | hx
          · exact lt_trans (hlt x hx) hvlt
          · rcases List.mem_cons.mp hx with rfl | hx
            · exact hvlt
            · exact hl1 x hx

/-- Insertion preserves invariant I2. -/
lemma insert_go_keySorted (t : BTree β) (hb : Bal t) (hs : KeySorted key t) (e : β) :
    KeySorted key (insert_go (kmatch key) (kless key) t e).2 := by
  cases hf : (insert_go (kmatch key) (kless key) t e).1 with
  | true =>
    unfold KeySorted
    rw [insert_go_found_inorder key t hs e hf]
    refine List.Pairwise.map _ ?_ hs
    intro a b hab
    have ha : key (if key a = key e then e else a) = key a := by
      by_cases h : key a = key e <;> simp [h]
    have hb2 : key (if key b = key e then e else b) = key b := by
      by_cases h : key b = key e <;> simp [h]
    rw [ha, hb2]
    exact hab
  | false =>
    obtain ⟨l1, l2, hsplit, hres, hl1, hl2⟩ :=
      insert_go_not_found_inorder key t hb hs e hf
    unfold KeySorted at hs ⊢
    rw [hres]
    rw [hsplit, List.pairwise_append] at hs
    obtain ⟨hp1, hp2, hcross⟩ := hs
    rw [List.pairwise_append]
    refine ⟨hp1, ?_, ?_⟩
    · rw [List.pairwise_cons]
      exact ⟨fun y hy => hl2 y hy, hp2⟩
    · intro a ha b hb2
      rcases List.mem_cons.mp hb2 with rfl | hb2
      · exact hl1 a ha
      · exact hcross a ha b hb2

/-- Removal of a present key: the in-order sequence loses exactly the
(unique) matching element. -/
lemma remove_go_found_inorder (t : BTree β) (hb : Bal t) (hs : KeySorted key t) (e : β)
    (h : (remove_go (kmatch key) (kless key) t e).1 = true) :
    ∃ l1 x l2, inorder t = l1 ++ x :: l2 ∧ key x = key e ∧
      inorder (remove_go (kmatch key) (kless key) t e).2 = l1 ++ l2 := by
  induction t with
  | nil => exact absurd h (by simp [remove_go])
  | node c0 c1 s v ih0 ih1 =>
    have hbal := hb
    rw [bal_node_iff] at hb
    obtain ⟨hsz, hb0, hb1, hbl0, hbl1⟩ := hb
    rw [keySorted_node_iff] at hs
    obtain ⟨hs0, hs1, hlt, hgt⟩ := hs
    by_cases hm : key e = key v
    · have hmb : kmatch key e v = true := by rw [kmatch_iff]; exact hm
      have hrh := remove_helper_spec c0 c1 s v hbal
      refine ⟨inorder c0, v, inorder c1, by simp, hm.symm, ?_⟩
      simp only [remove_go, hmb, if_true]
      exact hrh.2.2
    · have hmb : kmatch key e v = false := by simp [kmatch, hm]
      by_cases hl : key e < key v
      · have hlb : kless key e v = true := by rw [kless_iff]; exact hl
        have hf : (remove_go (kmatch key) (kless key) c0 e).1 = true := by
          rw [remove_go_fst] at h
          simpa [hmb, hlb] using h
        obtain ⟨l1, x, l2, hsplit, hkey, hres⟩ := ih0 hbl0 hs0 hf
        obtain ⟨hbal2, hsz2⟩ := remove_go_spec (kmatch key) (kless key) e c0 hbl0
        rw [hf, if_pos rfl] at hsz2
        have hcore := rebalance_spec (remove_go (kmatch key) (kless key) c0 e).2 c1 s v
          hbal2 hbl1 (by first | omega | (simp only [size_node]; try omega)) (by first | omega | (simp only [size_node]; try omega))
        refine ⟨l1, x, l2 ++ v :: inorder c1, ?_, hkey, ?_⟩
        · rw [inorder_node, hsplit]
          simp [List.append_assoc]
        · simp only [remove_go, hmb, hlb, Bool.false_eq_true, if_false, if_true, hf]
          rw [hcore.2.2, hres]
          simp [List.append_assoc]
      · have hvlt : key v < key e := by
          rcases lt_trichotomy (key e) (key v) with hx | hx | hx
          · exact absurd hx hl
          · exact absurd hx hm
          · exact hx
        have hlb : kless key e v = false := by simp [kless, hl]
        have hf : (remove_go (kmatch key) (kless key) c1 e).1 = true := by
          rw [remove_go_fst] at h
          simpa [hmb, hlb] using h
        obtain ⟨l1, x, l2, hsplit, hkey, hres⟩ := ih1 hbl1 hs1 hf
        obtain ⟨hbal2, hsz2⟩ := remove_go_spec (kmatch key) (kless key) e c1 hbl1
        rw [hf, if_pos rfl] at hsz2
        have hcore := rebalance_spec c0 (remove_go (kmatch key) (kless key) c1 e).2 s v
          hbl0 hbal2 (by first | omega | (simp only [size_node]; try omega)) (by first | omega | (simp only [size_node]; try omega))
        refine ⟨inorder c0 ++ v :: l1, x, l2, ?_, hkey, ?_⟩
        · rw [inorder_node, hsplit]
          simp [List.append_assoc]
        · simp only [remove_go, hmb, hlb, Bool.false_eq_true, if_false, if_true, hf]
          rw [hcore.2.2, hres]
          simp [List.append_assoc]

/-- Removal preserves invariant I2. -/
lemma remove_go_keySorted (t : BTree β) (hb : Bal t) (hs : KeySorted key t) (e : β) :
    KeySorted key (remove_go (kmatch key) (kless key) t e).2 := by
  cases hf : (remove_go (kmatch key) (kless key) t e).1 with
  | false => rw [remove_go_not_found_eq _ _ t e hf]; exact hs
  | true =>
    obtain ⟨l1, x, l2, hsplit, hkey, hres⟩ := remove_go_found_inorder key t hb hs e hf
    unfold KeySorted at hs ⊢
    rw [hres]
    rw [hsplit] at hs
    exact hs.sublist (List.Sublist.append_left (List.sublist_cons_self x l2) l1)

end KeyedSem

end WBT

namespace WBT

variable {α β : Type}

/-- The by-rank descent with a valid rank selects exactly the element at
1-based in-order position `rank` (and in particular succeeds: every
in-loop assertion holds and the loop stops at a real node). -/
lemma search_by_rank_get (t : BTree α) (h1 : check_I1 t = true) :
    ∀ r, 1 ≤ r → r ≤ t.size → sorted_set_search_by_rank t r = (inorder t)[r - 1]? := by
  induction t with
  | nil => intro r hr1 hr2; simp only [size_nil] at hr2; omega
  | node c0 c1 s v ih0 ih1 =>
    intro r hr1 hr2
    rw [check_I1_node_iff] at h1
    obtain ⟨hsz, h10, h11⟩ := h1
    have hlen0 := inorder_length_of_I1 c0 h10
    simp only [size_node] at hr2
    rw [sorted_set_search_by_rank, if_neg (by first | omega | (simp only [size_node]; try omega))]
    by_cases he : r = 1 + c0.size
    · rw [if_pos he, inorder_node, List.getElem?_append_right (by first | omega | (simp only [size_node]; try omega))]
      have hk : r - 1 - (inorder c0).length = 0 := by first | omega | (simp only [size_node]; try omega)
      rw [hk, List.getElem?_cons_zero]
    · rw [if_neg he]
      by_cases hlt : r < 1 + c0.size
      · rw [if_pos hlt, ih0 h10 r hr1 (by first | omega | (simp only [size_node]; try omega)), inorder_node,
          List.getElem?_append, if_pos (by first | omega | (simp only [size_node]; try omega))]
      · rw [if_neg hlt, ih1 h11 (r - (1 + c0.size)) (by first | omega | (simp only [size_node]; try omega)) (by first | omega | (simp only [size_node]; try omega)), inorder_node,
          List.getElem?_append_right (by first | omega | (simp only [size_node]; try omega))]
        have hk : r - 1 - (inorder c0).length = (r - (1 + c0.size) - 1) + 1 := by first | omega | (simp only [size_node]; try omega)
        rw [hk, List.getElem?_cons_succ]

/-- A rank outside `[1, size]` fails the very first assertion of the
by-rank descent. -/
lemma search_by_rank_out_of_range (t : BTree α) (r : Nat) (h : r < 1 ∨ t.size < r) :
    sorted_set_search_by_rank t r = none := by
  cases t with
  | nil => rfl
  | node c0 c1 s v => rw [sorted_set_search_by_rank, if_pos (by simpa using h)]

/-- A rank outside `[1, size]` fails the very first assertion of the
by-rank removal descent. -/
lemma remove_by_rank_out_of_range (t : BTree α) (r : Nat) (h : r < 1 ∨ t.size < r) :
    sorted_set_remove_by_rank t r = none := by
  cases t with
  | nil => rfl
  | node c0 c1 s v => rw [sorted_set_remove_by_rank, if_pos (by simpa using h)]

/-- By-rank removal with a valid rank succeeds, removes exactly the
element at 1-based in-order position `rank`, and returns it. -/
lemma remove_by_rank_inorder (t : BTree α) (hb : Bal t) :
    ∀ r e t2, sorted_set_remove_by_rank t r = some (e, t2) →
      ∃ l1 l2, inorder t = l1 ++ e :: l2 ∧ l1.length + 1 = r ∧ inorder t2 = l1 ++ l2 := by
  induction t with
  | nil => intro r e t2 hr; simp [sorted_set_remove_by_rank] at hr
  | node c0 c1 s v ih0 ih1 =>
    intro r e t2 hr
    have hbal := hb
    rw [bal_node_iff] at hb
    obtain ⟨hsz, hb0, hb1, hbl0, hbl1⟩ := hb
    have hlen0 := inorder_length_of_I1 c0 hbl0.1
    rw [sorted_set_remove_by_rank] at hr
    by_cases ha : r < 1 ∨ s < r
    · rw [if_pos ha] at hr; exact absurd hr (by simp)
    rw [if_neg ha] at hr
    by_cases he : r = 1 + c0.size
    · rw [if_pos he] at hr
      simp only [Option.some.injEq, Prod.mk.injEq] at hr
      obtain ⟨rfl, rfl⟩ := hr
      have hrh := remove_helper_spec c0 c1 s v hbal
      exact ⟨inorder c0, inorder c1, by simp, by first | omega | (simp only [size_node]; try omega), hrh.2.2⟩
    rw [if_neg he] at hr
    by_cases hlt : r < 1 + c0.size
    · rw [if_pos hlt] at hr
      obtain ⟨⟨e2, t3⟩, hr0, heq⟩ := Option.map_eq_some'.mp hr
      obtain ⟨l1, l2, hsplit, hlen, hres⟩ := ih0 hbl0 r e2 t3 hr0
      obtain ⟨hbal3, hsz3⟩ := remove_by_rank_bal c0 hbl0 r e2 t3 hr0
      have hcore := rebalance_spec t3 c1 s v hbal3 hbl1 (by first | omega | (simp only [size_node]; try omega)) (by first | omega | (simp only [size_node]; try omega))
      simp only [Prod.mk.injEq] at heq
      obtain ⟨rfl, rfl⟩ := heq
      refine ⟨l1, l2 ++ v :: inorder c1, ?_, hlen, ?_⟩
      · rw [inorder_node, hsplit]
        simp [List.append_assoc]
      · rw [hcore.2.2, hres]
        simp [List.append_assoc]
    · rw [if_neg hlt] at hr
      obtain ⟨⟨e2, t3⟩, hr0, heq⟩ := Option.map_eq_some'.mp hr
      obtain ⟨l1, l2, hsplit, hlen, hres⟩ := ih1 hbl1 (r - (1 + c0.size)) e2 t3 hr0
      obtain ⟨hbal3, hsz3⟩ := remove_by_rank_bal c1 hbl1 (r - (1 + c0.size)) e2 t3 hr0
      have hcore := rebalance_spec c0 t3 s v hbl0 hbal3 (by first | omega | (simp only [size_node]; try omega)) (by first | omega | (simp only [size_node]; try omega))
      simp only [Prod.mk.injEq] at heq
      obtain ⟨rfl, rfl⟩ := heq
      refine ⟨inorder c0 ++ v :: l1, l2, ?_, ?_, ?_⟩
      · rw [inorder_node, hsplit]
        simp [List.append_assoc]
      · simp only [List.length_append, List.length_cons]
        omega
      · rw [hcore.2.2, hres]
        simp [List.append_assoc]

/-- By-rank removal with a valid rank never hits an assertion. -/
lemma remove_by_rank_isSome (t : BTree α) (h1 : check_I1 t = true) :
    ∀ r, 1 ≤ r → r ≤ t.size → (sorted_set_remove_by_rank t r).isSome = true := by
  induction t with
  | nil => intro r hr1 hr2; simp only [size_nil] at hr2; omega
  | node c0 c1 s v ih0 ih1 =>
    intro r hr1 hr2
    rw [check_I1_node_iff] at h1
    obtain ⟨hsz, h10, h11⟩ := h1
    simp only [size_node] at hr2
    rw [sorted_set_remove_by_rank, if_neg (by first | omega | (simp only [size_node]; try omega))]
    by_cases he : r = 1 + c0.size
    · rw [if_pos he]; rfl
    · rw [if_neg he]
      by_cases hlt : r < 1 + c0.size
      · rw [if_pos hlt]
        have := ih0 h10 r hr1 (by first | omega | (simp only [size_node]; try omega))
        obtain ⟨⟨e2, t3⟩, hsome⟩ := Option.isSome_iff_exists.mp this
        rw [hsome]
        rfl
      · rw [if_neg hlt]
        have := ih1 h11 (r - (1 + c0.size)) (by first | omega | (simp only [size_node]; try omega)) (by first | omega | (simp only [size_node]; try omega))
        obtain ⟨⟨e2, t3⟩, hsome⟩ := Option.isSome_iff_exists.mp this
        rw [hsome]
        rfl

end WBT

namespace WBT

section Reach2

variable {α β : Type} [LinearOrder α] (key : β → α)

/-- Every reachable set satisfies invariant I2 (in-order keys strictly
increase). -/
lemma keySorted_of_reachable (t : BTree β)
    (h : Reachable (kmatch key) (kless key) t) : KeySorted key t := by
  induction h with
  | empty => exact keySorted_nil key
  | insert t e hr ih =>
    have hb := bal_of_reachable _ _ t hr
    exact insert_go_keySorted key t hb ih e
  | remove t e hr ih =>
    have hb := bal_of_reachable _ _ t hr
    exact remove_go_keySorted key t hb ih e
  | remove_by_rank t t2 r e hr hsome ih =>
    have hb := bal_of_reachable _ _ t hr
    obtain ⟨l1, l2, hsplit, _, hres⟩ := remove_by_rank_inorder t hb r e t2 hsome
    unfold KeySorted at ih ⊢
    rw [hres]
    rw [hsplit] at ih
    exact ih.sublist (List.Sublist.append_left (List.sublist_cons_self e l2) l1)

/-- In a strictly key-sorted list, elements are determined by their
keys. -/
lemma pairwise_key_unique (l : List β) (hp : List.Pairwise (fun x y => key x < key y) l) :
    ∀ x ∈ l, ∀ y ∈ l, key x = key y → x = y := by
  induction l with
  | nil => intro x hx; exact absurd hx (by simp)
  | cons a l ih =>
    rw [List.pairwise_cons] at hp
    obtain ⟨ha, hp⟩ := hp
    intro x hx y hy hkey
    rcases List.mem_cons.mp hx with hx2 | hx2
    · rcases List.mem_cons.mp hy with hy2 | hy2
      · rw [hx2, hy2]
      · subst hx2
        exact absurd (hkey ▸ ha y hy2) (lt_irrefl _)
    · rcases List.mem_cons.mp hy with hy2 | hy2
      · subst hy2
        exact absurd (hkey ▸ ha x hx2) (lt_irrefl _)
      · exact ih hp x hx2 y hy2 hkey

/-- In a strictly key-sorted list, the number of elements with key below
the element at position `i` is exactly `i`. -/
lemma countP_lt_get (l : List β) (hp : List.Pairwise (fun x y => key x < key y) l) :
    ∀ i (h : i < l.length),
      l.countP (fun y => decide (key y < key (l.get ⟨i, h⟩))) = i := by
  induction l with
  | nil => intro i h; simp at h
  | cons a l ih =>
    rw [List.pairwise_cons] at hp
    obtain ⟨ha, hp⟩ := hp
    intro i h
    cases i with
    | zero =>
      simp only [List.get]
      apply List.countP_eq_zero.mpr
      intro y hy
      simp only [decide_eq_true_eq]
      rcases List.mem_cons.mp hy with rfl | hy
      · exact lt_irrefl _
      · exact fun hc => absurd (ha y hy) (lt_asymm hc)
    | succ i =>
      have hh : i < l.length := by simpa using h
      have hget : (a :: l).get ⟨i + 1, h⟩ = l.get ⟨i, hh⟩ := rfl
      rw [hget]
      have hmem : l.get ⟨i, hh⟩ ∈ l := List.get_mem l i hh
      rw [List.countP_cons, ih hp i hh]
      have hpa : (decide (key a < key (l.get ⟨i, hh⟩)) : Bool) = true := by
        simp only [decide_eq_true_eq]
        exact ha _ hmem
      rw [hpa]
      simp

end Reach2

end WBT

namespace WBT

/-- C1: every set reachable from the empty set by any sequence of
`sorted_set_insert`, `sorted_set_remove`, and `sorted_set_remove_by_rank`
calls satisfies, at every real node, invariant I1
(`size == 1 + left.size + right.size`, the empty marker having size 0)
and invariant I3 (for each direction `d`,
`5 * (size(child[1-d]) + 1) >= 2 * (size(child[d]) + 1)`). -/
theorem claim_C1_invariant_preservation {α : Type} (is_match is_less : α → α → Bool)
    (t : BTree α) (h : Reachable is_match is_less t) :
    check_I1 t = true ∧ check_I3 t = true :=
  bal_of_reachable is_match is_less t h

theorem claim_C1_witness :
    Reachable (kmatch (id : Nat → Nat)) (kless id)
      (sorted_set_insert (kmatch (id : Nat → Nat)) (kless id)
        (sorted_set_insert (kmatch (id : Nat → Nat)) (kless id)
          (sorted_set_insert (kmatch (id : Nat → Nat)) (kless id) .nil 5).2.2 2).2.2 9).2.2 ∧
    (check_I1 (sorted_set_insert (kmatch (id : Nat → Nat)) (kless id)
        (sorted_set_insert (kmatch (id : Nat → Nat)) (kless id)
          (sorted_set_insert (kmatch (id : Nat → Nat)) (kless id) .nil 5).2.2 2).2.2 9).2.2 = true ∧
     check_I3 (sorted_set_insert (kmatch (id : Nat → Nat)) (kless id)
        (sorted_set_insert (kmatch (id : Nat → Nat)) (kless id)
          (sorted_set_insert (kmatch (id : Nat → Nat)) (kless id) .nil 5).2.2 2).2.2 9).2.2 = true) :=
  have hr : Reachable (kmatch (id : Nat → Nat)) (kless id) _ :=
    Reachable.insert _ 9 (Reachable.insert _ 2 (Reachable.insert _ 5 Reachable.empty))
  ⟨hr, claim_C1_invariant_preservation _ _ _ hr⟩

/-- C9: on a freshly created set the root link is the shared empty
marker of size 0, so `sorted_set_get_num_elements` answers 0 without a
special branch, `sorted_set_contains` is false for every element, and
`sorted_set_remove` returns false for every element and leaves the set
empty (the rank slot holds the initial running rank 1). -/
theorem claim_C9_empty_set {α : Type} (is_match is_less : α → α → Bool) (e : α) :
    sorted_set_get_num_elements (sorted_set_create : BTree α) = 0 ∧
    sorted_set_contains is_match is_less sorted_set_create e = false ∧
    sorted_set_remove is_match is_less sorted_set_create e
      = (false, 1, sorted_set_create) :=
  ⟨rfl, rfl, rfl⟩

/-- C6: `node_imbalanced(node, n1, n2, d)` is exactly the test
`n1 * (a + 1) < n2 * (b + 1)` on the sizes `a` of `child[1-d]` and `b`
of `child[d]`; the two `(5,2)` direction tests can never both fire (so
at most one restructuring happens per `node_rebalance` call, the first
matching direction short-circuiting); when the `(5,2)` test fires in
direction `d`, `node_rebalance` applies the single rotation in direction
`1-d` iff `node_imbalanced(child[d], 2, 3, d)` holds and otherwise the
double rotation in direction `1-d`; and when neither direction fires the
node is returned unrestructured. -/
theorem claim_C6_imbalance_rebalance {α : Type} (c0 c1 : BTree α) (s : Nat) (v : α)
    (n1 n2 : Nat) :
    (node_imbalanced (.node c0 c1 s v) n1 n2 false = true ↔
      n1 * (c1.size + 1) < n2 * (c0.size + 1)) ∧
    (node_imbalanced (.node c0 c1 s v) n1 n2 true = true ↔
      n1 * (c0.size + 1) < n2 * (c1.size + 1)) ∧
    ¬(node_imbalanced (.node c0 c1 s v) 5 2 false = true ∧
      node_imbalanced (.node c0 c1 s v) 5 2 true = true) ∧
    (∀ d : Bool, node_imbalanced (.node c0 c1 s v) 5 2 d = true →
      node_rebalance (.node c0 c1 s v) =
        if node_imbalanced ((BTree.node c0 c1 s v).child d) 2 3 d
        then rotation (.node c0 c1 s v) !d
        else double_rotation (.node c0 c1 s v) !d) ∧
    (node_imbalanced (.node c0 c1 s v) 5 2 false = false →
      node_imbalanced (.node c0 c1 s v) 5 2 true = false →
      node_rebalance (.node c0 c1 s v) = .node c0 c1 s v) := by
  refine ⟨by rw [node_imbalanced_node_false]; simp, by rw [node_imbalanced_node_true]; simp,
    ?_, ?_, ?_⟩
  · rintro ⟨h0, h1⟩
    rw [node_imbalanced_node_false] at h0
    rw [node_imbalanced_node_true] at h1
    simp only [decide_eq_true_eq] at h0 h1
    omega
  · intro d hd
    cases d with
    | false =>
      simp only [node_rebalance, hd, if_true, Bool.not_false]
    | true =>
      have h0 : node_imbalanced (.node c0 c1 s v) 5 2 false = false := by
        rw [node_imbalanced_node_true] at hd
        rw [node_imbalanced_node_false]
        simp only [decide_eq_true_eq] at hd
        simp only [decide_eq_false_iff_not]
        omega
      simp only [node_rebalance, h0, hd, Bool.false_eq_true, if_false, if_true, Bool.not_true]
  · intro h0 h1
    simp only [node_rebalance, h0, h1, Bool.false_eq_true, if_false]

theorem claim_C6_witness :
    node_imbalanced
      (BTree.node (BTree.node (.node .nil .nil 1 1) (.node .nil .nil 1 3) 3 2) .nil 4 7
        : BTree Nat) 5 2 false = true ∧
    node_rebalance
      (BTree.node (BTree.node (.node .nil .nil 1 1) (.node .nil .nil 1 3) 3 2) .nil 4 7) =
      if node_imbalanced
          ((BTree.node (BTree.node (.node .nil .nil 1 1) (.node .nil .nil 1 3) 3 2) .nil 4 7
            : BTree Nat).child false) 2 3 false
      then rotation
        (BTree.node (BTree.node (.node .nil .nil 1 1) (.node .nil .nil 1 3) 3 2) .nil 4 7) !false
      else double_rotation
        (BTree.node (BTree.node (.node .nil .nil 1 1) (.node .nil .nil 1 3) 3 2) .nil 4 7)
          !false :=
  ⟨by decide,
    (claim_C6_imbalance_rebalance _ _ 4 7 5 2).2.2.2.1 false (by decide)⟩

/-- C7: on a real node whose `child[1-d]` is real, in a subtree
satisfying I1, `rotation(y, d)` returns that child `x` as the new
subtree root, with `x.size` after the rotation equal to `y.size` before
it and the in-order sequence unchanged; likewise `double_rotation(z, d)`
(whose sizes are recomputed child-first: `y` and `z` before `x`)
returns `x = z.child[1-d].child[d]` as the new root with `x.size` after
equal to `z.size` before, the in-order sequence unchanged. -/
theorem claim_C7_rotations {α : Type} (c0 c1 : BTree α) (s : Nat) (v : α) (d : Bool) :
    (check_I1 (.node c0 c1 s v) = true →
      (BTree.node c0 c1 s v).child (!d) ≠ BTree.nil →
      (rotation (.node c0 c1 s v) d).size = s ∧
      element? (rotation (.node c0 c1 s v) d)
        = element? ((BTree.node c0 c1 s v).child !d) ∧
      inorder (rotation (.node c0 c1 s v) d) = inorder (.node c0 c1 s v)) ∧
    (check_I1 (.node c0 c1 s v) = true →
      (BTree.node c0 c1 s v).child (!d) ≠ BTree.nil →
      ((BTree.node c0 c1 s v).child (!d)).child d ≠ BTree.nil →
      (double_rotation (.node c0 c1 s v) d).size = s ∧
      element? (double_rotation (.node c0 c1 s v) d)
        = element? (((BTree.node c0 c1 s v).child !d).child d) ∧
      inorder (double_rotation (.node c0 c1 s v) d) = inorder (.node c0 c1 s v)) := by
  constructor
  · intro h1 hx
    cases d with
    | false =>
      rcases c1 with _ | ⟨e0, e1, se, ve⟩
      · simp only [Bool.not_false, child_node_true] at hx
        exact absurd rfl hx
      rw [check_I1_node_iff] at h1
      obtain ⟨hsz, h10, h11⟩ := h1
      rw [check_I1_node_iff] at h11
      obtain ⟨hsz1, _, _⟩ := h11
      simp only [rotation, Bool.not_false, child_node_true, child_node_false,
        setChild_node_true, setChild_node_false, update_size_node]
      refine ⟨by simp only [size_node] at *; omega, rfl, ?_⟩
      simp [List.append_assoc]
    | true =>
      rcases c0 with _ | ⟨e0, e1, se, ve⟩
      · simp only [Bool.not_true, child_node_false] at hx
        exact absurd rfl hx
      rw [check_I1_node_iff] at h1
      obtain ⟨hsz, h10, h11⟩ := h1
      rw [check_I1_node_iff] at h10
      obtain ⟨hsz0, _, _⟩ := h10
      simp only [rotation, Bool.not_true, child_node_true, child_node_false,
        setChild_node_true, setChild_node_false, update_size_node]
      refine ⟨by simp only [size_node] at *; omega, rfl, ?_⟩
      simp [List.append_assoc]
  · intro h1 hy hx
    cases d with
    | false =>
      rcases c1 with _ | ⟨e0, e1, se, ve⟩
      · simp only [Bool.not_false, child_node_true] at hy
        exact absurd rfl hy
      rcases e0 with _ | ⟨f0, f1, sf, vf⟩
      · simp only [Bool.not_false, child_node_true, child_node_false] at hx
        exact absurd rfl hx
      rw [check_I1_node_iff] at h1
      obtain ⟨hsz, h10, h11⟩ := h1
      rw [check_I1_node_iff] at h11
      obtain ⟨hsz1, h110, h111⟩ := h11
      rw [check_I1_node_iff] at h110
      obtain ⟨hszf, _, _⟩ := h110
      simp only [double_rotation, Bool.not_false, child_node_true, child_node_false,
        setChild_node_true, setChild_node_false, update_size_node]
      refine ⟨by simp only [size_node] at *; omega, rfl, ?_⟩
      simp [List.append_assoc]
    | true =>
      rcases c0 with _ | ⟨e0, e1, se, ve⟩
      · simp only [Bool.not_true, child_node_false] at hy
        exact absurd rfl hy
      rcases e1 with _ | ⟨f0, f1, sf, vf⟩
      · simp only [Bool.not_true, child_node_false, child_node_true] at hx
        exact absurd rfl hx
      rw [check_I1_node_iff] at h1
      obtain ⟨hsz, h10, h11⟩ := h1
      rw [check_I1_node_iff] at h10
      obtain ⟨hsz0, h100, h101⟩ := h10
      rw [check_I1_node_iff] at h101
      obtain ⟨hszf, _, _⟩ := h101
      simp only [double_rotation, Bool.not_true, child_node_true, child_node_false,
        setChild_node_true, setChild_node_false, update_size_node]
      refine ⟨by simp only [size_node] at *; omega, rfl, ?_⟩
      simp [List.append_assoc]

theorem claim_C7_witness :
    check_I1 (BTree.node (.node .nil .nil 1 1) (.node (.node .nil .nil 1 3) .nil 2 4) 4 2
      : BTree Nat) = true ∧
    ((BTree.node (.node .nil .nil 1 1) (.node (.node .nil .nil 1 3) .nil 2 4) 4 2
      : BTree Nat).child (!false) ≠ BTree.nil) ∧
    (rotation (BTree.node (.node .nil .nil 1 1) (.node (.node .nil .nil 1 3) .nil 2 4) 4 2
        : BTree Nat) false).size = 4 ∧
    ((BTree.node (.node .nil .nil 1 1) (.node (.node .nil .nil 1 3) .nil 2 4) 4 2
      : BTree Nat).child (!false)).child false ≠ BTree.nil ∧
    (double_rotation
        (BTree.node (.node .nil .nil 1 1) (.node (.node .nil .nil 1 3) .nil 2 4) 4 2
        : BTree Nat) false).size = 4 := by
  have h := claim_C7_rotations (.node .nil .nil 1 1 : BTree Nat)
    (.node (.node .nil .nil 1 3) .nil 2 4) 4 2 false
  exact ⟨by decide, by decide, (h.1 (by decide) (by decide)).1, by decide,
    (h.2 (by decide) (by decide) (by decide)).1⟩

/-- C8: under I1, a rank in `[1, size]` makes both the pure by-rank
descent and the by-rank removal descent succeed — every in-loop
assertion `1 <= rank && rank <= current->size` holds, the loop stops at
a real node, and the empty marker's payload is never read (our embedding
returns `none` exactly when an assertion fails); a rank outside that
interval fails the first assertion and has no defined result. -/
theorem claim_C8_rank_descent_safety {α : Type} (t : BTree α) (r : Nat) :
    (check_I1 t = true → 1 ≤ r → r ≤ t.size →
      (sorted_set_get_element_by_rank t r).isSome = true ∧
      (sorted_set_remove_by_rank t r).isSome = true) ∧
    (r < 1 ∨ t.size < r →
      sorted_set_get_element_by_rank t r = none ∧
      sorted_set_remove_by_rank t r = none) := by
  constructor
  · intro h1 hr1 hr2
    constructor
    · unfold sorted_set_get_element_by_rank
      rw [search_by_rank_get t h1 r hr1 hr2]
      have hlen : r - 1 < (inorder t).length := by
        rw [inorder_length_of_I1 t h1]
        omega
      rw [List.getElem?_eq_some_iff.mpr ⟨hlen, rfl⟩]
      rfl
    · exact remove_by_rank_isSome t h1 r hr1 hr2
  · intro h
    exact ⟨search_by_rank_out_of_range t r h, remove_by_rank_out_of_range t r h⟩

theorem claim_C8_witness :
    (check_I1 (BTree.node .nil .nil 1 42 : BTree Nat) = true ∧ 1 ≤ 1 ∧
      1 ≤ (BTree.node .nil .nil 1 42 : BTree Nat).size ∧
      (sorted_set_get_element_by_rank (BTree.node .nil .nil 1 42 : BTree Nat) 1).isSome = true ∧
      (sorted_set_remove_by_rank (BTree.node .nil .nil 1 42 : BTree Nat) 1).isSome = true) ∧
    ((2 < 1 ∨ (BTree.node .nil .nil 1 42 : BTree Nat).size < 2) ∧
      sorted_set_get_element_by_rank (BTree.node .nil .nil 1 42 : BTree Nat) 2 = none ∧
      sorted_set_remove_by_rank (BTree.node .nil .nil 1 42 : BTree Nat) 2 = none) :=
  ⟨⟨by decide, by decide, by decide,
    (claim_C8_rank_descent_safety (BTree.node .nil .nil 1 42) 1).1 (by decide) (by decide)
      (by decide)⟩,
   ⟨by decide,
    (claim_C8_rank_descent_safety (BTree.node .nil .nil 1 42) 2).2 (by decide)⟩⟩

end WBT

namespace WBT

/-- C2: `sorted_set_insert` returns true (already present) exactly when
some stored element matches under `is_match`; in that case it only
overwrites the matched node's payload with the new element — tree shape,
every stored size, and the total size are unchanged (no rebalancing);
otherwise it returns false and adds the element at the failed search's
empty link, at its ordered position, growing the size by exactly 1. -/
theorem claim_C2_insert_semantics {α β : Type} [LinearOrder α] (key : β → α)
    (t : BTree β) (e : β) (hb : Bal t) (hs : KeySorted key t) :
    ((sorted_set_insert (kmatch key) (kless key) t e).1 = true ↔
      ∃ x ∈ inorder t, key x = key e) ∧
    ((sorted_set_insert (kmatch key) (kless key) t e).1 = true →
      shape (sorted_set_insert (kmatch key) (kless key) t e).2.2 = shape t ∧
      (sorted_set_insert (kmatch key) (kless key) t e).2.2.size = t.size ∧
      inorder (sorted_set_insert (kmatch key) (kless key) t e).2.2
        = (inorder t).map fun x => if key x = key e then e else x) ∧
    ((sorted_set_insert (kmatch key) (kless key) t e).1 = false →
      (sorted_set_insert (kmatch key) (kless key) t e).2.2.size = t.size + 1 ∧
      ∃ l1 l2, inorder t = l1 ++ l2 ∧
        inorder (sorted_set_insert (kmatch key) (kless key) t e).2.2 = l1 ++ e :: l2 ∧
        (∀ x ∈ l1, key x < key e) ∧ (∀ x ∈ l2, key e < key x)) := by
  have hfst : (sorted_set_insert (kmatch key) (kless key) t e).1
      = (insert_go (kmatch key) (kless key) t e).1 := rfl
  have hsnd : (sorted_set_insert (kmatch key) (kless key) t e).2.2
      = (insert_go (kmatch key) (kless key) t e).2 := rfl
  rw [hfst, hsnd]
  refine ⟨?_, ?_, ?_⟩
  · rw [insert_go_fst_eq_search (kmatch key) (kless key) t e 1]
    exact search_go_isSome_iff key t hs e 1
  · intro hf
    obtain ⟨_, hsz⟩ := insert_go_spec (kmatch key) (kless key) e t hb
    rw [hf, if_pos rfl] at hsz
    exact ⟨insert_go_found_shape _ _ t e hf, by first | omega | (simp only [size_node]; try omega),
      insert_go_found_inorder key t hs e hf⟩
  · intro hf
    obtain ⟨_, hsz⟩ := insert_go_spec (kmatch key) (kless key) e t hb
    rw [hf, if_neg (by simp)] at hsz
    exact ⟨by first | omega | (simp only [size_node]; try omega), insert_go_not_found_inorder key t hb hs e hf⟩

theorem claim_C2_witness :
    Bal (BTree.node (.node .nil .nil 1 1) (.node .nil .nil 1 3) 3 2 : BTree Nat) ∧
    KeySorted id (BTree.node (.node .nil .nil 1 1) (.node .nil .nil 1 3) 3 2 : BTree Nat) ∧
    ((sorted_set_insert (kmatch id) (kless id)
        (BTree.node (.node .nil .nil 1 1) (.node .nil .nil 1 3) 3 2 : BTree Nat) 2).1 = true ↔
      ∃ x ∈ inorder (BTree.node (.node .nil .nil 1 1) (.node .nil .nil 1 3) 3 2 : BTree Nat),
        id x = id 2) :=
  have hb : Bal (BTree.node (.node .nil .nil 1 1) (.node .nil .nil 1 3) 3 2 : BTree Nat) :=
    ⟨by decide, by decide⟩
  have hs : KeySorted id
      (BTree.node (.node .nil .nil 1 1) (.node .nil .nil 1 3) 3 2 : BTree Nat) := by
    unfold KeySorted
    decide
  ⟨hb, hs, (claim_C2_insert_semantics id _ 2 hb hs).1⟩

/-- C3: `sorted_set_remove` of a present key returns true, shrinks the
size by exactly 1, and afterwards `sorted_set_contains` of that key is
false; `sorted_set_remove` of an absent key returns false and leaves the
tree (contents and shape) exactly unchanged. -/
theorem claim_C3_remove_semantics {α β : Type} [LinearOrder α] (key : β → α)
    (t : BTree β) (e : β) (hb : Bal t) (hs : KeySorted key t) :
    ((sorted_set_remove (kmatch key) (kless key) t e).1 = true ↔
      ∃ x ∈ inorder t, key x = key e) ∧
    ((sorted_set_remove (kmatch key) (kless key) t e).1 = true →
      (sorted_set_remove (kmatch key) (kless key) t e).2.2.size + 1 = t.size ∧
      sorted_set_contains (kmatch key) (kless key)
        (sorted_set_remove (kmatch key) (kless key) t e).2.2 e = false) ∧
    ((sorted_set_remove (kmatch key) (kless key) t e).1 = false →
      (sorted_set_remove (kmatch key) (kless key) t e).2.2 = t) := by
  have hfst : (sorted_set_remove (kmatch key) (kless key) t e).1
      = (remove_go (kmatch key) (kless key) t e).1 := rfl
  have hsnd : (sorted_set_remove (kmatch key) (kless key) t e).2.2
      = (remove_go (kmatch key) (kless key) t e).2 := rfl
  rw [hfst, hsnd]
  refine ⟨?_, ?_, ?_⟩
  · rw [remove_go_fst_eq_search (kmatch key) (kless key) t e 1]
    exact search_go_isSome_iff key t hs e 1
  · intro hf
    obtain ⟨_, hsz⟩ := remove_go_spec (kmatch key) (kless key) e t hb
    rw [hf, if_pos rfl] at hsz
    refine ⟨by first | omega | (simp only [size_node]; try omega), ?_⟩
    have hsorted2 := remove_go_keySorted key t hb hs e
    obtain ⟨l1, x, l2, hsplit, hkey, hres⟩ := remove_go_found_inorder key t hb hs e hf
    have hnone : ¬ ∃ y ∈ inorder (remove_go (kmatch key) (kless key) t e).2, key y = key e := by
      rintro ⟨y, hymem, hykey⟩
      rw [hres] at hymem
      have hps := hs
      unfold KeySorted at hps
      rw [hsplit, List.pairwise_append] at hps
      obtain ⟨hp1, hp2, hcross⟩ := hps
      rw [List.pairwise_cons] at hp2
      rcases List.mem_append.mp hymem with hy | hy
      · exact absurd (hykey ▸ hcross y hy x (List.mem_cons_self x l2)) (hkey ▸ lt_irrefl _)
      · exact absurd (hykey ▸ hp2.1 y hy) (hkey ▸ lt_irrefl _)
    rw [Bool.eq_false_iff]
    intro hc
    exact hnone ((search_go_isSome_iff key _ hsorted2 e 1).mp hc)
  · exact remove_go_not_found_eq (kmatch key) (kless key) t e

theorem claim_C3_witness :
    Bal (BTree.node (.node .nil .nil 1 1) (.node .nil .nil 1 3) 3 2 : BTree Nat) ∧
    KeySorted id (BTree.node (.node .nil .nil 1 1) (.node .nil .nil 1 3) 3 2 : BTree Nat) ∧
    ((sorted_set_remove (kmatch id) (kless id)
        (BTree.node (.node .nil .nil 1 1) (.node .nil .nil 1 3) 3 2 : BTree Nat) 7).1 = false →
      (sorted_set_remove (kmatch id) (kless id)
        (BTree.node (.node .nil .nil 1 1) (.node .nil .nil 1 3) 3 2 : BTree Nat) 7).2.2
        = (BTree.node (.node .nil .nil 1 1) (.node .nil .nil 1 3) 3 2 : BTree Nat)) :=
  have hb : Bal (BTree.node (.node .nil .nil 1 1) (.node .nil .nil 1 3) 3 2 : BTree Nat) :=
    ⟨by decide, by decide⟩
  have hs : KeySorted id
      (BTree.node (.node .nil .nil 1 1) (.node .nil .nil 1 3) 3 2 : BTree Nat) := by
    unfold KeySorted
    decide
  ⟨hb, hs, (claim_C3_remove_semantics id _ 7 hb hs).2.2⟩

/-- C4: for a valid rank `r`, `sorted_set_get_element_by_rank` copies
out exactly the element at 1-based in-order position `r`, and
`sorted_set_contains` on that same element (rank output requested)
reports found — returning that very element — and writes rank `r`. -/
theorem claim_C4_rank_round_trip {α β : Type} [LinearOrder α] (key : β → α)
    (t : BTree β) (r : Nat) (hb : Bal t) (hs : KeySorted key t)
    (hr1 : 1 ≤ r) (hr2 : r ≤ sorted_set_get_num_elements t) :
    ∃ x, sorted_set_get_element_by_rank t r = some x ∧
      (inorder t)[r - 1]? = some x ∧
      (sorted_set_search (kmatch key) (kless key) t x).1 = some x ∧
      (sorted_set_search (kmatch key) (kless key) t x).2 = r := by
  have h1 := hb.1
  have hlen : (inorder t).length = t.size := inorder_length_of_I1 t h1
  have hr2s : r ≤ t.size := hr2
  have hidx : r - 1 < (inorder t).length := by first | omega | (simp only [size_node]; try omega)
  have hsome : (inorder t)[r - 1]? = some ((inorder t).get ⟨r - 1, hidx⟩) :=
    List.getElem?_eq_some_iff.mpr ⟨hidx, rfl⟩
  refine ⟨(inorder t).get ⟨r - 1, hidx⟩, ?_, hsome, ?_, ?_⟩
  · unfold sorted_set_get_element_by_rank
    rw [search_by_rank_get t h1 r hr1 hr2s, hsome]
  · have hmem : (inorder t).get ⟨r - 1, hidx⟩ ∈ inorder t := List.get_mem _ _ _
    have hsome2 : (search_go (kmatch key) (kless key) t ((inorder t).get ⟨r - 1, hidx⟩)
        1).1.isSome = true :=
      (search_go_isSome_iff key t hs _ 1).mpr ⟨_, hmem, rfl⟩
    obtain ⟨y, hy⟩ := Option.isSome_iff_exists.mp hsome2
    obtain ⟨hymem, hykey⟩ := (search_go_found_spec key t hs _ 1).2 y hy
    have hxy : y = (inorder t).get ⟨r - 1, hidx⟩ :=
      pairwise_key_unique key (inorder t) hs y hymem _ hmem hykey
    show (search_go (kmatch key) (kless key) t _ 1).1 = _
    rw [hy, hxy]
  · show (search_go (kmatch key) (kless key) t _ 1).2 = r
    rw [search_go_rank key t h1 hs _ 1, countP_lt_get key (inorder t) hs (r - 1) hidx]
    omega

theorem claim_C4_witness :
    Bal (BTree.node (.node .nil .nil 1 1) (.node .nil .nil 1 3) 3 2 : BTree Nat) ∧
    KeySorted id (BTree.node (.node .nil .nil 1 1) (.node .nil .nil 1 3) 3 2 : BTree Nat) ∧
    (1 ≤ 2 ∧ 2 ≤ sorted_set_get_num_elements
      (BTree.node (.node .nil .nil 1 1) (.node .nil .nil 1 3) 3 2 : BTree Nat)) ∧
    (∃ x, sorted_set_get_element_by_rank
        (BTree.node (.node .nil .nil 1 1) (.node .nil .nil 1 3) 3 2 : BTree Nat) 2 = some x ∧
      (inorder (BTree.node (.node .nil .nil 1 1) (.node .nil .nil 1 3) 3 2
        : BTree Nat))[2 - 1]? = some x ∧
      (sorted_set_search (kmatch id) (kless id)
        (BTree.node (.node .nil .nil 1 1) (.node .nil .nil 1 3) 3 2 : BTree Nat) x).1 = some x ∧
      (sorted_set_search (kmatch id) (kless id)
        (BTree.node (.node .nil .nil 1 1) (.node .nil .nil 1 3) 3 2 : BTree Nat) x).2 = 2) :=
  have hb : Bal (BTree.node (.node .nil .nil 1 1) (.node .nil .nil 1 3) 3 2 : BTree Nat) :=
    ⟨by decide, by decide⟩
  have hs : KeySorted id
      (BTree.node (.node .nil .nil 1 1) (.node .nil .nil 1 3) 3 2 : BTree Nat) := by
    unfold KeySorted
    decide
  ⟨hb, hs, ⟨by decide, by decide⟩,
    claim_C4_rank_round_trip id _ 2 hb hs (by decide) (by decide)⟩

/-- C5: for every reachable set, the in-order callback sequence is
strictly increasing under `is_less`, no two of its elements are related
by `is_match`, and the reverse-order callback sequence is exactly the
reverse of the in-order one. -/
theorem claim_C5_traversal_order {α β : Type} [LinearOrder α] (key : β → α)
    (t : BTree β) (h : Reachable (kmatch key) (kless key) t) :
    List.Chain' (fun x y => kless key x y = true) (walk_in_order t) ∧
    List.Pairwise (fun x y => kmatch key x y = false) (walk_in_order t) ∧
    walk_in_reverse t = (walk_in_order t).reverse := by
  have hs2 : List.Pairwise (fun x y => key x < key y) (walk_in_order t) :=
    keySorted_of_reachable key t h
  refine ⟨?_, ?_, walk_true_eq_reverse t⟩
  · exact List.Pairwise.chain' (hs2.imp fun hab => by rw [kless_iff]; exact hab)
  · refine hs2.imp fun hab => ?_
    simp only [kmatch, decide_eq_false_iff_not]
    exact ne_of_lt hab

theorem claim_C5_witness :
    Reachable (kmatch (id : Nat → Nat)) (kless id)
      (sorted_set_insert (kmatch (id : Nat → Nat)) (kless id)
        (sorted_set_insert (kmatch (id : Nat → Nat)) (kless id) .nil 4).2.2 1).2.2 ∧
    walk_in_reverse (sorted_set_insert (kmatch (id : Nat → Nat)) (kless id)
        (sorted_set_insert (kmatch (id : Nat → Nat)) (kless id) .nil 4).2.2 1).2.2
      = (walk_in_order (sorted_set_insert (kmatch (id : Nat → Nat)) (kless id)
        (sorted_set_insert (kmatch (id : Nat → Nat)) (kless id) .nil 4).2.2 1).2.2).reverse :=
  have hr : Reachable (kmatch (id : Nat → Nat)) (kless id) _ :=
    Reachable.insert _ 1 (Reachable.insert _ 4 Reachable.empty)
  ⟨hr, (claim_C5_traversal_order id _ hr).2.2⟩

/-- C10: whenever a rank output is requested, the keyed search writes it
even on failure: it always holds 1 plus the number of stored elements
with smaller key — the 1-based position the sought key occupies or would
occupy.  Both `sorted_set_insert` and `sorted_set_remove` pass the
caller's rank slot to that same search before mutating, so an insert of
a genuinely new key (returning false) reports exactly the rank the new
element occupies after the insertion, and a remove of an absent key
returns false yet still overwrites the rank slot with the would-be
position. -/
theorem claim_C10_rank_always_written {α β : Type} [LinearOrder α] (key : β → α)
    (t : BTree β) (e : β) (hb : Bal t) (hs : KeySorted key t) :
    (sorted_set_search_rank (kmatch key) (kless key) t e
      = 1 + (inorder t).countP fun x => decide (key x < key e)) ∧
    ((sorted_set_insert (kmatch key) (kless key) t e).2.1
        = sorted_set_search_rank (kmatch key) (kless key) t e ∧
      (sorted_set_remove (kmatch key) (kless key) t e).2.1
        = sorted_set_search_rank (kmatch key) (kless key) t e) ∧
    ((sorted_set_insert (kmatch key) (kless key) t e).1 = false →
      (inorder (sorted_set_insert (kmatch key) (kless key) t e).2.2)[
        (sorted_set_insert (kmatch key) (kless key) t e).2.1 - 1]? = some e) := by
  have hrank : sorted_set_search_rank (kmatch key) (kless key) t e
      = 1 + (inorder t).countP fun x => decide (key x < key e) := by
    unfold sorted_set_search_rank sorted_set_search
    rw [search_go_rank key t hb.1 hs e 1]
  refine ⟨hrank, ⟨rfl, rfl⟩, ?_⟩
  intro hf
  have hf2 : (insert_go (kmatch key) (kless key) t e).1 = false := hf
  obtain ⟨l1, l2, hsplit, hres, hl1, hl2⟩ :=
    insert_go_not_found_inorder key t hb hs e hf2
  have hlen1 : (l1.countP fun x => decide (key x < key e)) = l1.length :=
    List.countP_eq_length.mpr fun x hx => by simpa using hl1 x hx
  have hlen2 : (l2.countP fun x => decide (key x < key e)) = 0 :=
    List.countP_eq_zero.mpr fun x hx => by
      simp only [decide_eq_true_eq]
      exact fun hc => absurd (hl2 x hx) (lt_asymm hc)
  have hcnt : ((inorder t).countP fun x => decide (key x < key e)) = l1.length := by
    rw [hsplit, List.countP_append, hlen1, hlen2]
    omega
  have hridx : (sorted_set_insert (kmatch key) (kless key) t e).2.1 - 1 = l1.length := by
    show sorted_set_search_rank (kmatch key) (kless key) t e - 1 = l1.length
    rw [hrank, hcnt]
    omega
  have hres2 : inorder (sorted_set_insert (kmatch key) (kless key) t e).2.2
      = l1 ++ e :: l2 := hres
  rw [hridx, hres2, List.getElem?_append_right (le_refl _)]
  simp

theorem claim_C10_witness :
    Bal (BTree.node (.node .nil .nil 1 1) (.node .nil .nil 1 3) 3 2 : BTree Nat) ∧
    KeySorted id (BTree.node (.node .nil .nil 1 1) (.node .nil .nil 1 3) 3 2 : BTree Nat) ∧
    sorted_set_search_rank (kmatch id) (kless id)
      (BTree.node (.node .nil .nil 1 1) (.node .nil .nil 1 3) 3 2 : BTree Nat) 7
      = 1 + (inorder (BTree.node (.node .nil .nil 1 1) (.node .nil .nil 1 3) 3 2
          : BTree Nat)).countP fun x => decide (id x < id 7) :=
  have hb : Bal (BTree.node (.node .nil .nil 1 1) (.node .nil .nil 1 3) 3 2 : BTree Nat) :=
    ⟨by decide, by decide⟩
  have hs : KeySorted id
      (BTree.node (.node .nil .nil 1 1) (.node .nil .nil 1 3) 3 2 : BTree Nat) := by
    unfold KeySorted
    decide
  ⟨hb, hs, (claim_C10_rank_always_written id _ 7 hb hs).1⟩

end WBT
